import Mathlib

/-!
Verification of the crontabula cron-expression library.

The development shallowly embeds the two source files that matter
(`crontabula/__init__.py`): the recursive field parser
(`_expression_to_list`, `_try_int`, `_handle_text_day_week`, `parse`)
and the date/date-time generators (`Crontab.dates`, `Crontab.date_times`).

Field texts are embedded as `List Char`; Python strings that reach the
numeric parser are modelled at ASCII granularity (Python `str.isnumeric`
and `int` also accept some exotic Unicode numerals, which no claim
exercises).  Python exceptions are modelled by an explicit error type
distinguishing `InvalidExpression` from the plain `ValueError`s that the
code can also raise (tuple unpacking with more than two split parts, and
`range()` with a zero step).  Lazy infinite generators are modelled by
the function giving the finite list of elements produced by the first
`k` iterations of the outer `while True:` year loop.
-/

set_option autoImplicit false

namespace Crontabula

/-- Python exceptions escaping the library: `InvalidExpression(msg)`
(a subclass of `ValueError`) versus a plain `ValueError(msg)`. -/
inductive PyErr where
  | invalidExpression (msg : String)
  | valueError (msg : String)
deriving DecidableEq

/-- The `Crontab` frozen dataclass: five value sets plus the two
wildcard flags recorded from the field texts. -/
structure Crontab where
  minutes : List Nat
  hours : List Nat
  day_of_month : List Nat
  months : List Nat
  day_of_week : List Nat
  day_of_month_asterisk : Bool
  day_of_week_asterisk : Bool
deriving DecidableEq

/-- A `datetime.date`: naive calendar date. -/
structure Date where
  year : Nat
  month : Nat
  day : Nat
deriving DecidableEq

/-- A `datetime.datetime` at the minute granularity the library works at
(the spec excludes seconds-level precision, and the code reads only
`.date()`, `.hour` and `.minute` from the anchor and always emits
datetimes with zero seconds). -/
structure DateTime where
  year : Nat
  month : Nat
  day : Nat
  hour : Nat
  minute : Nat
deriving DecidableEq

/-- Python `s.split(sep)` for a one-character separator: always returns
at least one part, empty parts included. -/
def splitOnChar (sep : Char) : List Char → List (List Char)
  | [] => [[]]
  | h :: t =>
    match splitOnChar sep t with
    | [] => [[h]]
    | x :: xs => if h = sep then [] :: x :: xs else (h :: x) :: xs

/-- Whitespace stripped by Python `int(str)` (ASCII part). -/
def isPySpace (c : Char) : Bool :=
  c = ' ' || c = '\t' || c = '\n' || c = '\r' || c = Char.ofNat 11 || c = Char.ofNat 12

/-- Strip leading and trailing whitespace. -/
def stripWs (l : List Char) : List Char :=
  ((l.dropWhile isPySpace).reverse.dropWhile isPySpace).reverse

/-- Valid Python integer-literal digit run: digits with single
underscores strictly between digits. -/
def digitsOk : List Char → Bool
  | [] => false
  | [c] => c.isDigit
  | c :: '_' :: rest => c.isDigit && digitsOk rest
  | c :: rest => c.isDigit && digitsOk rest

/-- Numeric value of a digit run (underscores skipped). -/
def digitsVal (l : List Char) : Nat :=
  l.foldl (fun acc c => if c = '_' then acc else acc * 10 + (c.toNat - '0'.toNat)) 0

/-- Digit run to a natural number, checking shape. -/
def natPart (l : List Char) : Option Nat :=
  if digitsOk l then some (digitsVal l) else none

/-- Python `int(str)`: optional surrounding whitespace, optional sign,
then digits (underscores allowed between digits); `none` models the
`ValueError` that `int` raises otherwise. -/
def pyInt (l : List Char) : Option Int :=
  match stripWs l with
  | '+' :: r => (natPart r).map (fun n => (n : Int))
  | '-' :: r => (natPart r).map (fun n => -(n : Int))
  | r => (natPart r).map (fun n => (n : Int))

/-- Python `str.isnumeric` at ASCII granularity: nonempty and all digits. -/
def isnumeric (l : List Char) : Bool :=
  !l.isEmpty && l.all (·.isDigit)

/-- The source `_try_int`: parse an integer, then reject it unless
`0 ≤ result`, `min_value ≤ result` and `result ≤ max_value`; on success
the (necessarily nonnegative) value is returned as a `Nat`. -/
def tryInt (v : List Char) (maxValue minValue : Nat) : Except PyErr Nat :=
  match pyInt v with
  | none => .error (.invalidExpression (String.mk v ++ " is not an integer"))
  | some r =>
    if r < 0 ∨ (minValue : Int) > r ∨ (maxValue : Int) < r then
      .error (.invalidExpression
        (toString r ++ " is greater than " ++ toString maxValue ++
          " or less than " ++ toString minValue))
    else .ok r.toNat

/-- Python `list(range(start, stop, step))` for nonnegative arguments and
positive step (a zero step never reaches this function: the caller
raises first, as `range` itself would). -/
def rangeStep (start stop step : Nat) : List Nat :=
  (List.range ((stop - start + step - 1) / step)).map (fun i => start + step * i)

/-- Insert into a strictly ascending list, dropping duplicates. -/
def insertSorted (x : Nat) : List Nat → List Nat
  | [] => [x]
  | y :: ys => if x < y then x :: y :: ys else if x = y then y :: ys else y :: insertSorted x ys

/-- Python `sorted(set(xs))`: strictly ascending enumeration of the
distinct elements. -/
def sortedDedup (l : List Nat) : List Nat :=
  l.foldr insertSorted []

/-- Sequence a list of `Except` computations, propagating the first
error (as the left-to-right Python comprehension does). -/
def seqExcept {α : Type} : List (Except PyErr α) → Except PyErr (List α)
  | [] => .ok []
  | x :: xs =>
    match x with
    | .error e => .error e
    | .ok a =>
      match seqExcept xs with
      | .error e => .error e
      | .ok rest => .ok (a :: rest)

/-- The source `_expression_to_list`, fuelled so that the recursion is
structural (every recursive call is on a strictly shorter text, so
`text.length + 1` fuel always suffices; the fuel-exhausted error is
proved unreachable).  Branch order follows the source: comma list,
wildcard, numeric literal, step, range, else `InvalidExpression`. -/
def expression_to_list_fuel : Nat → List Char → Nat → Nat → Nat → Except PyErr (List Nat)
  | 0, _, _, _, _ => .error (.valueError "recursion fuel exhausted")
  | fuel + 1, expr, maxValue, minValue, step =>
    if expr.contains ',' then
      match seqExcept ((splitOnChar ',' expr).map
          (fun sub => expression_to_list_fuel fuel sub maxValue minValue step)) with
      | .error e => .error e
      | .ok ls => .ok (sortedDedup ls.flatten)
    else if expr = ['*'] then
      if step = 0 then .error (.valueError "range() arg 3 must not be zero")
      else .ok (rangeStep minValue (maxValue + 1) step)
    else if isnumeric expr then
      match tryInt expr maxValue minValue with
      | .error e => .error e
      | .ok n => .ok [n]
    else if expr.contains '/' then
      match splitOnChar '/' expr with
      | [lhs, rhs] =>
        match tryInt rhs maxValue minValue with
        | .error e => .error e
        | .ok rhs_step => expression_to_list_fuel fuel lhs maxValue minValue rhs_step
      | _ => .error (.valueError "too many values to unpack (expected 2)")
    else if expr.contains '-' then
      match splitOnChar '-' expr with
      | [range_start, range_end] =>
        match tryInt range_start maxValue minValue with
        | .error e => .error e
        | .ok lo =>
          match tryInt range_end maxValue minValue with
          | .error e => .error e
          | .ok hi =>
            if step = 0 then .error (.valueError "range() arg 3 must not be zero")
            else .ok (rangeStep lo (hi + 1) step)
      | _ => .error (.valueError "too many values to unpack (expected 2)")
    else
      .error (.invalidExpression ("Invalid expression: " ++ String.mk expr))

/-- The source `_expression_to_list` at its natural fuel. -/
def expression_to_list (expr : List Char) (maxValue : Nat) (minValue : Nat := 0)
    (step : Nat := 1) : Except PyErr (List Nat) :=
  expression_to_list_fuel (expr.length + 1) expr maxValue minValue step

/-- Python `str.replace(pat, rep)` for a three-character pattern:
left-to-right, non-overlapping, resuming after each match. -/
def replace3 (p1 p2 p3 rep : Char) : List Char → List Char
  | p :: q :: r :: rest =>
    if p = p1 ∧ q = p2 ∧ r = p3 then rep :: replace3 p1 p2 p3 rep rest
    else p :: replace3 p1 p2 p3 rep (q :: r :: rest)
  | other => other

/-- The source `_handle_text_day_week`: substitute the seven weekday
abbreviations, in source order. -/
def handle_text_day_week (day_week_expr : List Char) : List Char :=
  replace3 'S' 'A' 'T' '6'
    (replace3 'F' 'R' 'I' '5'
      (replace3 'T' 'H' 'U' '4'
        (replace3 'W' 'E' 'D' '3'
          (replace3 'T' 'U' 'E' '2'
            (replace3 'M' 'O' 'N' '1'
              (replace3 'S' 'U' 'N' '0' day_week_expr))))))

/-- The source `MACROS` table. -/
def MACROS : List (String × String) :=
  [("@yearly", "0 0 1 1 *"),
   ("@annually", "0 0 1 1 *"),
   ("@monthly", "0 0 1 * *"),
   ("@weekly", "0 0 * * 0"),
   ("@daily", "0 0 * * *"),
   ("@midnight", "0 0 * * *"),
   ("@hourly", "0 * * * *")]

/-- Body of the source `parse` after the five fields have been split:
substitute weekday abbreviations in the day-of-week field, parse the
five fields with their bounds, and record the two wildcard flags (the
day-of-week flag from the text after substitution). -/
def parseFields (minute_expr hour_expr day_month_expr month_expr day_week_expr0 :
    List Char) : Except PyErr Crontab :=
  let day_week_expr := handle_text_day_week day_week_expr0
  match expression_to_list minute_expr 59 with
  | .error e => .error e
  | .ok minutes =>
    match expression_to_list hour_expr 23 with
    | .error e => .error e
    | .ok hours =>
      match expression_to_list day_month_expr 31 1 with
      | .error e => .error e
      | .ok day_months =>
        match expression_to_list month_expr 12 1 with
        | .error e => .error e
        | .ok months =>
          match expression_to_list day_week_expr 6 with
          | .error e => .error e
          | .ok day_weeks =>
            .ok ⟨minutes, hours, day_months, months, day_weeks,
              day_month_expr == ['*'], day_week_expr == ['*']⟩

/-- The source `parse`: resolve macros, split on single spaces, demand
exactly five fields, then parse them. -/
def parse (expression : String) : Except PyErr Crontab :=
  let expression := ((MACROS.lookup expression).getD expression)
  match splitOnChar ' ' expression.toList with
  | [me, he, dme, moe, dwe] => parseFields me he dme moe dwe
  | _ => .error (.invalidExpression ("\"" ++ expression ++ "\" does not have 5 components"))

/-- Python `calendar.isleap`. -/
def isleap (y : Nat) : Bool :=
  y % 4 = 0 && (y % 100 != 0 || y % 400 = 0)

/-- Number of days in a month of the Gregorian calendar (defined for
month numbers 1..12, the only values a parsed schedule contains). -/
def monthLen (y m : Nat) : Nat :=
  if m = 2 then (if isleap y then 29 else 28)
  else if m = 4 ∨ m = 6 ∨ m = 9 ∨ m = 11 then 30
  else 31

/-- Days in years before proleptic-Gregorian year `y` (year 1 is the
first year, as for Python `datetime`). -/
def daysBeforeYear (y : Nat) : Nat :=
  365 * (y - 1) + (y - 1) / 4 + (y - 1) / 400 - (y - 1) / 100

/-- Days in the months of year `y` strictly before month `m`. -/
def daysBeforeMonth (y : Nat) : Nat → Nat
  | 0 => 0
  | 1 => 0
  | m + 2 => daysBeforeMonth y (m + 1) + monthLen y (m + 1)

/-- Python weekday numbering (0 = Monday … 6 = Sunday) of a calendar
date, via the day count since 0001-01-01, which was a Monday. -/
def weekday (y m d : Nat) : Nat :=
  (daysBeforeYear y + daysBeforeMonth y m + (d - 1)) % 7

/-- Python `calendar.Calendar().itermonthdays2(y, m)` with the default
`firstweekday = 0` (Monday): pairs `(day_of_month, weekday)` padded to
whole weeks with `day_of_month = 0` entries. -/
def itermonthdays2 (y m : Nat) : List (Nat × Nat) :=
  let w := weekday y m 1
  let len := monthLen y m
  (List.range w).map (fun j => (0, j)) ++
    (List.range len).map (fun j => (j + 1, (w + j) % 7)) ++
      (List.range ((7 - (w + len) % 7) % 7)).map (fun j => (0, (w + len + j) % 7))

/-- The source `_day_of_week_to_cron`: Python day-of-week (0 = Monday)
to cron day-of-week (0 = Sunday). -/
def day_of_week_to_cron (day_of_week : Nat) : Nat :=
  (day_of_week + 1) % 7

/-- Day filter of `Crontab.dates`: skip padding entries and, in the
anchor month, days before the anchor day; then apply the POSIX
day-of-month/day-of-week combination branch and emit the date. -/
def dayEmit (c : Crontab) (anchor : Date) (month : Nat) (p : Nat × Nat) : Option Date :=
  if p.1 = 0 then none
  else if month = anchor.month ∧ p.1 < anchor.day then none
  else
    let day_of_month_match := c.day_of_month.contains p.1
    let day_of_week_match := c.day_of_week.contains (day_of_week_to_cron p.2)
    if c.day_of_week_asterisk then
      if day_of_month_match then some ⟨anchor.year, month, p.1⟩ else none
    else if c.day_of_month_asterisk then
      if day_of_week_match then some ⟨anchor.year, month, p.1⟩ else none
    else
      if day_of_month_match ∨ day_of_week_match then some ⟨anchor.year, month, p.1⟩
      else none

/-- One pass of the `while True:` body of `Crontab.dates` for the
current `anchor`: months of the schedule not below the anchor month,
then the days kept by `dayEmit`. -/
def yearDates (c : Crontab) (anchor : Date) : List Date :=
  c.months.flatMap (fun month =>
    if month < anchor.month then []
    else (itermonthdays2 anchor.year month).filterMap (dayEmit c anchor month))

/-- Anchor used by the `i`-th pass of the `while True:` loop: the start
date first, then January 1st of each following year. -/
def anchorFor (anchor : Date) (i : Nat) : Date :=
  if i = 0 then anchor else ⟨anchor.year + i, 1, 1⟩

/-- Dates emitted by the first `k` year passes of `Crontab.dates`. -/
def datesUpTo (c : Crontab) (anchor : Date) (k : Nat) : List Date :=
  (List.range k).flatMap (fun i => yearDates c (anchorFor anchor i))

/-- The `date` part of a `datetime`. -/
def DateTime.dateOf (t : DateTime) : Date :=
  ⟨t.year, t.month, t.day⟩

/-- Inner loops of `Crontab.date_times` for one produced date: hours of
the schedule (skipping, on the start day, hours before the start hour),
then minutes (skipping, in the start hour of the start day, minutes
before the start minute). -/
def timesForDay (c : Crontab) (anchor : DateTime) (day : Date) : List DateTime :=
  c.hours.flatMap (fun hour =>
    if day = anchor.dateOf ∧ hour < anchor.hour then []
    else c.minutes.filterMap (fun minute =>
      if (day = anchor.dateOf ∧ hour = anchor.hour) ∧ minute < anchor.minute then none
      else some ⟨day.year, day.month, day.day, hour, minute⟩))

/-- Datetimes emitted by `Crontab.date_times` restricted to the dates of
the first `k` year passes. -/
def dateTimesUpTo (c : Crontab) (start : DateTime) (k : Nat) : List DateTime :=
  (datesUpTo c start.dateOf k).flatMap (timesForDay c start)

/-- The `Crontab.dates` entry point with its optional start argument:
`start if start else datetime.date.today()`. -/
def dates_py (c : Crontab) (start : Option Date) (today : Date) (k : Nat) : List Date :=
  datesUpTo c (start.getD today) k

/-- The `Crontab.date_times` entry point with its optional start
argument: `start if start else datetime.datetime.now()`. -/
def date_times_py (c : Crontab) (start : Option DateTime) (now : DateTime) (k : Nat) :
    List DateTime :=
  dateTimesUpTo c (start.getD now) k

/-- Strict chronological order on dates (the order `datetime.date`
compares by). -/
def Date.lt (a b : Date) : Prop :=
  a.year < b.year ∨ (a.year = b.year ∧
    (a.month < b.month ∨ (a.month = b.month ∧ a.day < b.day)))

instance (a b : Date) : Decidable (Date.lt a b) := by
  unfold Date.lt; infer_instance

/-- Nonstrict chronological order on dates. -/
def Date.le (a b : Date) : Prop :=
  Date.lt a b ∨ a = b

instance (a b : Date) : Decidable (Date.le a b) := by
  unfold Date.le; infer_instance

/-- Strict chronological order on minute-resolution datetimes. -/
def DateTime.lt (a b : DateTime) : Prop :=
  Date.lt a.dateOf b.dateOf ∨ (a.dateOf = b.dateOf ∧
    (a.hour < b.hour ∨ (a.hour = b.hour ∧ a.minute < b.minute)))

instance (a b : DateTime) : Decidable (DateTime.lt a b) := by
  unfold DateTime.lt; infer_instance

/-- Nonstrict chronological order on minute-resolution datetimes. -/
def DateTime.le (a b : DateTime) : Prop :=
  DateTime.lt a b ∨ a = b

instance (a b : DateTime) : Decidable (DateTime.le a b) := by
  unfold DateTime.le; infer_instance

/-- The POSIX day combination rule exactly as the claim states it: with
a day-of-week wildcard the day-of-month set decides; otherwise with a
day-of-month wildcard the cron day-of-week set decides; otherwise a day
matching either set matches. -/
def combRule (c : Crontab) (y m d : Nat) : Prop :=
  if c.day_of_week_asterisk then d ∈ c.day_of_month
  else if c.day_of_month_asterisk then
    day_of_week_to_cron (weekday y m d) ∈ c.day_of_week
  else d ∈ c.day_of_month ∨ day_of_week_to_cron (weekday y m d) ∈ c.day_of_week

instance (c : Crontab) (y m d : Nat) : Decidable (combRule c y m d) := by
  unfold combRule; infer_instance

/-- A calendar day that `Crontab.dates` should emit in year `y`: a real
day of a month of the schedule satisfying the combination rule. -/
def matchesDay (c : Crontab) (y m d : Nat) : Prop :=
  m ∈ c.months ∧ 1 ≤ d ∧ d ≤ monthLen y m ∧ combRule c y m d

instance (c : Crontab) (y m d : Nat) : Decidable (matchesDay c y m d) := by
  unfold matchesDay; infer_instance

/-- Whether an `Except` computation succeeded. -/
def isOkB {ε α : Type} : Except ε α → Bool
  | .ok _ => true
  | .error _ => false

instance {ε α : Type} [DecidableEq ε] [DecidableEq α] : DecidableEq (Except ε α) := fun x y =>
  match x, y with
  | .ok a, .ok b => decidable_of_iff (a = b) ⟨fun h => by rw [h], fun h => by injection h⟩
  | .error a, .error b =>
    decidable_of_iff (a = b) ⟨fun h => by rw [h], fun h => by injection h⟩
  | .ok _, .error _ => isFalse (fun h => Except.noConfusion h)
  | .error _, .ok _ => isFalse (fun h => Except.noConfusion h)

/-- Transcription of the well-formedness conditions of spec section 4.1
for one field text, written from the words of the spec (list of
well-formed parts; wildcard; in-range numeric literal; step with an
in-range integer stride; range with two in-range integers), to be
compared with the success of the implementation parser.  The
`stepZero` flag records that the ambient step is zero, in which case
expanding a wildcard or range fails. -/
def wfField_fuel : Nat → List Char → Nat → Nat → Bool → Bool
  | 0, _, _, _, _ => false
  | fuel + 1, t, mx, mn, stepZero =>
    if t.contains ',' then
      (splitOnChar ',' t).all (fun sub => wfField_fuel fuel sub mx mn stepZero)
    else if t = ['*'] then !stepZero
    else if isnumeric t then
      match pyInt t with
      | some r => decide (0 ≤ r ∧ (mn : Int) ≤ r ∧ r ≤ (mx : Int))
      | none => false
    else if t.contains '/' then
      match splitOnChar '/' t with
      | [lhs, rhs] =>
        match pyInt rhs with
        | some r =>
          if 0 ≤ r ∧ (mn : Int) ≤ r ∧ r ≤ (mx : Int) then
            wfField_fuel fuel lhs mx mn (r == 0)
          else false
        | none => false
      | _ => false
    else if t.contains '-' then
      match splitOnChar '-' t with
      | [lo, hi] =>
        match pyInt lo, pyInt hi with
        | some a, some b =>
          decide (0 ≤ a ∧ (mn : Int) ≤ a ∧ a ≤ (mx : Int)) &&
            decide (0 ≤ b ∧ (mn : Int) ≤ b ∧ b ≤ (mx : Int)) && !stepZero
        | _, _ => false
      | _ => false
    else false

/-- Spec-side field well-formedness at its natural fuel. -/
def wfField (t : List Char) (mx mn : Nat) (stepZero : Bool) : Bool :=
  wfField_fuel (t.length + 1) t mx mn stepZero

/-- Spec-side well-formedness of a whole expression: after macro
substitution it splits on single spaces into exactly five fields, each
well-formed for its bounds, the day-of-week field after weekday
abbreviation substitution. -/
def wellFormed (s : String) : Bool :=
  let e := (MACROS.lookup s).getD s
  match splitOnChar ' ' e.toList with
  | [me, he, dme, moe, dwe] =>
    wfField me 59 0 false && wfField he 23 0 false && wfField dme 31 1 false &&
      wfField moe 12 1 false && wfField (handle_text_day_week dwe) 6 0 false
  | _ => false

/-- Occurrence of the three-character pattern `p1 p2 p3` somewhere in a
character list. -/
def Occ3 (p1 p2 p3 : Char) (s : List Char) : Prop :=
  ∃ u v, s = u ++ [p1, p2, p3] ++ v

end Crontabula

/-! ## Theorems -/

namespace Crontabula

/-- Claim C6, counterexample: the macro names the code recognizes carry
an `@` prefix (the `MACROS` table maps `@yearly`, not `yearly`), so
parsing the bare macro name `yearly` fails instead of succeeding. -/
theorem C6_counterexample :
    parse "yearly" =
      Except.error (PyErr.invalidExpression "\"yearly\" does not have 5 components") := by
  decide

/-- Claim C6 as amended: each macro name carries an `@` prefix
(`@yearly`, `@annually`, `@monthly`, `@weekly`, `@daily`, `@midnight`,
`@hourly`); parsing the prefixed name succeeds and gives the same
schedule as parsing its canonical five-field string. -/
theorem C6_macros :
    parse "@yearly" = parse "0 0 1 1 *" ∧
    parse "@annually" = parse "0 0 1 1 *" ∧
    parse "@monthly" = parse "0 0 1 * *" ∧
    parse "@weekly" = parse "0 0 * * 0" ∧
    parse "@daily" = parse "0 0 * * *" ∧
    parse "@midnight" = parse "0 0 * * *" ∧
    parse "@hourly" = parse "0 * * * *" ∧
    isOkB (parse "@yearly") = true ∧
    isOkB (parse "@annually") = true ∧
    isOkB (parse "@monthly") = true ∧
    isOkB (parse "@weekly") = true ∧
    isOkB (parse "@daily") = true ∧
    isOkB (parse "@midnight") = true ∧
    isOkB (parse "@hourly") = true := by
  decide

/-- Claim C10: weekday abbreviation handling is plain substring
replacement, so the separator-free day-of-week field `SUNMON` is
accepted: its text becomes `01`, which parses as the singleton
day-of-week value set containing 1. -/
theorem C10_concatenated_abbreviations :
    handle_text_day_week "SUNMON".toList = "01".toList ∧
    (parse "0 0 * * SUNMON").toOption.map Crontab.day_of_week = some [1] := by
  decide

/-- Claim C9: with an explicitly supplied start, `dates` and
`date_times` do not depend on the ambient clock (the `today` / `now`
value read when no start is given), so two invocations with the same
schedule and the same explicit start produce identical sequences. -/
theorem C9_deterministic (c : Crontab) (sd : Date) (st : DateTime) (t₁ t₂ : Date)
    (n₁ n₂ : DateTime) (k : Nat) :
    dates_py c (some sd) t₁ k = dates_py c (some sd) t₂ k ∧
    date_times_py c (some st) n₁ k = date_times_py c (some st) n₂ k :=
  ⟨rfl, rfl⟩

/-- Claim C5, counterexample: the field text `5-2` (a range whose left
side exceeds its right side) parses successfully to the empty value
set, contradicting the claim that a successfully parsed field is never
empty. -/
theorem C5_counterexample :
    expression_to_list "5-2".toList 59 0 1 = Except.ok [] := by
  decide

/-- Claim C3, counterexample: a field splitting into more than two
parts on `/` or `-` raises the tuple-unpacking `ValueError`, and a zero
step reaching wildcard expansion raises the `range()` `ValueError`;
neither is an `InvalidExpression`. -/
theorem C3_counterexample :
    parse "1-2-3 * * * *" =
      Except.error (PyErr.valueError "too many values to unpack (expected 2)") ∧
    parse "*/0 * * * *" =
      Except.error (PyErr.valueError "range() arg 3 must not be zero") := by
  decide

/-- Every part of a split has length at most the length of the input. -/
theorem splitOnChar_length_le (sep : Char) (l : List Char) :
    ∀ part ∈ splitOnChar sep l, part.length ≤ l.length := by
  induction l with
  | nil => intro part hp; simp [splitOnChar] at hp; simp [hp]
  | cons h t ih =>
    intro part hp
    simp only [splitOnChar] at hp
    rcases hr : splitOnChar sep t with _ | ⟨x, xs⟩
    · rw [hr] at hp
      simp at hp
      simp [hp, List.length_cons]
    · rw [hr] at hp
      by_cases hsep : h = sep
      · simp [hsep] at hp
        rcases hp with hp | hp | hp
        · simp [hp]
        · have := ih x (by rw [hr]; exact List.mem_cons_self x xs)
          rw [hp]; exact Nat.le_succ_of_le this
        · have := ih part (by rw [hr]; exact List.mem_cons_of_mem x hp)
          exact Nat.le_succ_of_le this
      · simp [hsep] at hp
        rcases hp with hp | hp
        · have := ih x (by rw [hr]; exact List.mem_cons_self x xs)
          rw [hp]; simpa using this
        · have := ih part (by rw [hr]; exact List.mem_cons_of_mem x hp)
          exact Nat.le_succ_of_le this

/-- When the separator occurs in the input, every part of the split is
strictly shorter than the input. -/
theorem splitOnChar_length_lt (sep : Char) (l : List Char) (hsep : sep ∈ l) :
    ∀ part ∈ splitOnChar sep l, part.length < l.length := by
  induction l with
  | nil => cases hsep
  | cons h t ih =>
    intro part hp
    simp only [splitOnChar] at hp
    rcases hr : splitOnChar sep t with _ | ⟨x, xs⟩
    · rw [hr] at hp
      simp at hp
      subst hp
      rcases List.mem_cons.1 hsep with he | he
      · exfalso
        revert hr
        induction t with
        | nil => simp [splitOnChar]
        | cons a b _ =>
          simp only [splitOnChar]
          rcases splitOnChar sep b with _ | ⟨_, _⟩ <;> by_cases hab : a = sep <;> simp [hab]
      · exfalso
        revert hr
        induction t with
        | nil => cases he
        | cons a b _ =>
          simp only [splitOnChar]
          rcases splitOnChar sep b with _ | ⟨_, _⟩ <;> by_cases hab : a = sep <;> simp [hab]
    · rw [hr] at hp
      by_cases heq : h = sep
      · simp [heq] at hp
        rcases hp with hp | hp | hp
        · simp [hp]
        · have := splitOnChar_length_le sep t x (by rw [hr]; exact List.mem_cons_self x xs)
          rw [hp]; exact Nat.lt_succ_of_le this
        · have := splitOnChar_length_le sep t part
            (by rw [hr]; exact List.mem_cons_of_mem x hp)
          exact Nat.lt_succ_of_le this
      · have hst : sep ∈ t := by
          rcases List.mem_cons.1 hsep with he | he
          · exact absurd he.symm heq
          · exact he
        simp [heq] at hp
        rcases hp with hp | hp
        · have := ih hst x (by rw [hr]; exact List.mem_cons_self x xs)
          rw [hp]; simpa using this
        · have := splitOnChar_length_le sep t part
            (by rw [hr]; exact List.mem_cons_of_mem x hp)
          exact Nat.lt_succ_of_le this

/-- Successful sequencing contains exactly the successes, in order. -/
theorem seqExcept_ok_mem {α : Type} :
    ∀ {xs : List (Except PyErr α)} {ys : List α}, seqExcept xs = .ok ys →
      ∀ y ∈ ys, Except.ok y ∈ xs := by
  intro xs
  induction xs with
  | nil => intro ys h y hy; simp [seqExcept] at h; subst h; cases hy
  | cons x xs ih =>
    intro ys h y hy
    simp only [seqExcept] at h
    rcases x with e | a
    · cases h
    · rcases hs : seqExcept xs with e | rest
      · rw [hs] at h; cases h
      · rw [hs] at h
        injection h with h
        subst h
        rcases List.mem_cons.1 hy with hy | hy
        · subst hy; exact List.mem_cons_self _ _
        · exact List.mem_cons_of_mem _ (ih hs y hy)

/-- Membership in an ordered duplicate-dropping insertion. -/
theorem mem_insertSorted {x a : Nat} : ∀ {l : List Nat},
    a ∈ insertSorted x l ↔ a = x ∨ a ∈ l := by
  intro l
  induction l with
  | nil => simp [insertSorted]
  | cons y ys ih =>
    simp only [insertSorted]
    by_cases h1 : x < y
    · rw [if_pos h1]
      simp [List.mem_cons]
    · by_cases h2 : x = y
      · rw [if_neg h1, if_pos h2]
        subst h2
        simp only [List.mem_cons]
        tauto
      · rw [if_neg h1, if_neg h2]
        simp only [List.mem_cons, ih]
        tauto

/-- Ordered duplicate-dropping insertion preserves strict sortedness. -/
theorem pairwise_insertSorted {x : Nat} : ∀ {l : List Nat},
    l.Pairwise (· < ·) → (insertSorted x l).Pairwise (· < ·) := by
  intro l
  induction l with
  | nil => intro _; simp [insertSorted]
  | cons y ys ih =>
    intro hp
    rcases List.pairwise_cons.1 hp with ⟨hy, hys⟩
    simp only [insertSorted]
    by_cases h1 : x < y
    · rw [if_pos h1]
      refine List.pairwise_cons.2 ⟨?_, hp⟩
      intro b hb
      rcases List.mem_cons.1 hb with hb | hb
      · rw [hb]; exact h1
      · exact Nat.lt_trans h1 (hy b hb)
    · by_cases h2 : x = y
      · rw [if_neg h1, if_pos h2]
        exact hp
      · rw [if_neg h1, if_neg h2]
        refine List.pairwise_cons.2 ⟨?_, ih hys⟩
        intro b hb
        rcases mem_insertSorted.1 hb with hb | hb
        · rw [hb]; omega
        · exact hy b hb

/-- Membership in the sorted deduplication. -/
theorem mem_sortedDedup {a : Nat} : ∀ {l : List Nat}, a ∈ sortedDedup l ↔ a ∈ l := by
  intro l
  induction l with
  | nil => simp [sortedDedup]
  | cons x xs ih =>
    show a ∈ insertSorted x (sortedDedup xs) ↔ _
    rw [mem_insertSorted, ih]
    simp

/-- The sorted deduplication is strictly ascending. -/
theorem pairwise_sortedDedup : ∀ (l : List Nat), (sortedDedup l).Pairwise (· < ·) := by
  intro l
  induction l with
  | nil => simp [sortedDedup]
  | cons x xs ih => exact pairwise_insertSorted ih

/-- Elements of a stepped range lie between its start (inclusive) and
stop (exclusive). -/
theorem rangeStep_bounds {start stop step : Nat} (hstep : 0 < step) :
    ∀ x ∈ rangeStep start stop step, start ≤ x ∧ x < stop := by
  intro x hx
  unfold rangeStep at hx
  rcases List.mem_map.1 hx with ⟨i, hi, hxi⟩
  rw [List.mem_range] at hi
  subst hxi
  have h2 : step * i + step ≤ step * ((stop - start + step - 1) / step) := by
    have h3 := Nat.mul_le_mul_left step (Nat.succ_le_of_lt hi)
    calc step * i + step = step * (i + 1) := by ring
    _ ≤ _ := h3
  have h3 : ((stop - start + step - 1) / step) * step ≤ stop - start + step - 1 :=
    Nat.div_mul_le_self _ _
  rw [Nat.mul_comm] at h3
  omega

/-- A stepped range with positive step is strictly ascending. -/
theorem rangeStep_pairwise {start stop step : Nat} (hstep : 0 < step) :
    (rangeStep start stop step).Pairwise (· < ·) := by
  unfold rangeStep
  refine List.Pairwise.map _ ?_ (List.pairwise_lt_range _)
  intro i j hij
  have h2 : step * i < step * j := (Nat.mul_lt_mul_left hstep).2 hij
  omega

/-- A successful `_try_int` value lies within the field bounds. -/
theorem tryInt_ok {v : List Char} {mx mn n : Nat} (h : tryInt v mx mn = .ok n) :
    mn ≤ n ∧ n ≤ mx := by
  unfold tryInt at h
  rcases hv : pyInt v with _ | r
  · rw [hv] at h; cases h
  · simp only [hv] at h
    by_cases hcond : r < 0 ∨ (mn : Int) > r ∨ (mx : Int) < r
    · rw [if_pos hcond] at h; cases h
    · rw [if_neg hcond] at h
      injection h with h
      subst h
      push_neg at hcond
      omega

/-- Core invariant of `_expression_to_list`: on success every value lies
within the field bounds and the list is strictly ascending (hence
duplicate-free).  Fuel-general form, proved by induction on the fuel. -/
theorem etl_sorted_bounds :
    ∀ (fuel : Nat) (expr : List Char) (mx mn step : Nat) (l : List Nat),
      expr.length < fuel → expression_to_list_fuel fuel expr mx mn step = .ok l →
      (∀ x ∈ l, mn ≤ x ∧ x ≤ mx) ∧ l.Pairwise (· < ·) := by
  intro fuel
  induction fuel with
  | zero => intro expr mx mn step l hlen; omega
  | succ fuel ih =>
    intro expr mx mn step l hlen heq
    simp only [expression_to_list_fuel] at heq
    by_cases hc : expr.contains ','
    · rw [if_pos hc] at heq
      have hcm : ',' ∈ expr := List.elem_iff.1 hc
      rcases hs : seqExcept ((splitOnChar ',' expr).map
          (fun sub => expression_to_list_fuel fuel sub mx mn step)) with e | ls
      · simp only [hs] at heq; cases heq
      · simp only [hs] at heq
        injection heq with heq
        subst heq
        constructor
        · intro x hx
          rw [mem_sortedDedup] at hx
          rcases List.mem_flatten.1 hx with ⟨ys, hys, hxy⟩
          have hok := seqExcept_ok_mem hs ys hys
          rcases List.mem_map.1 hok with ⟨sub, hsub, hsubeq⟩
          have hlt : sub.length < expr.length := splitOnChar_length_lt ',' expr hcm sub hsub
          exact (ih sub mx mn step ys (by omega) hsubeq).1 x hxy
        · exact pairwise_sortedDedup _
    · rw [if_neg hc] at heq
      by_cases hstar : expr = ['*']
      · rw [if_pos hstar] at heq
        by_cases hz : step = 0
        · rw [if_pos hz] at heq; cases heq
        · rw [if_neg hz] at heq
          injection heq with heq
          subst heq
          have hpos : 0 < step := Nat.pos_of_ne_zero hz
          exact ⟨fun x hx => by have := rangeStep_bounds hpos x hx; omega,
            rangeStep_pairwise hpos⟩
      · rw [if_neg hstar] at heq
        by_cases hnum : isnumeric expr
        · rw [if_pos hnum] at heq
          rcases ht : tryInt expr mx mn with e | n
          · simp only [ht] at heq; cases heq
          · simp only [ht] at heq
            injection heq with heq
            subst heq
            have := tryInt_ok ht
            exact ⟨fun x hx => by simp at hx; omega, List.pairwise_singleton _ _⟩
        · rw [if_neg hnum] at heq
          by_cases hsl : expr.contains '/'
          · rw [if_pos hsl] at heq
            have hslm : '/' ∈ expr := List.elem_iff.1 hsl
            rcases hsp : splitOnChar '/' expr with _ | ⟨lhs, rest⟩
            · simp only [hsp] at heq; cases heq
            · rcases rest with _ | ⟨rhs, rest2⟩
              · simp only [hsp] at heq; cases heq
              · rcases rest2 with _ | ⟨r3, rest3⟩
                · simp only [hsp] at heq
                  rcases ht : tryInt rhs mx mn with e | rhs_step
                  · simp only [ht] at heq; cases heq
                  · simp only [ht] at heq
                    have hlt : lhs.length < expr.length :=
                      splitOnChar_length_lt '/' expr hslm lhs
                        (by rw [hsp]; exact List.mem_cons_self _ _)
                    exact ih lhs mx mn rhs_step l (by omega) heq
                · simp only [hsp] at heq; cases heq
          · rw [if_neg hsl] at heq
            by_cases hda : expr.contains '-'
            · rw [if_pos hda] at heq
              rcases hsp : splitOnChar '-' expr with _ | ⟨lo, rest⟩
              · simp only [hsp] at heq; cases heq
              · rcases rest with _ | ⟨hi, rest2⟩
                · simp only [hsp] at heq; cases heq
                · rcases rest2 with _ | ⟨r3, rest3⟩
                  · simp only [hsp] at heq
                    rcases htlo : tryInt lo mx mn with e | nlo
                    · simp only [htlo] at heq; cases heq
                    · simp only [htlo] at heq
                      rcases hthi : tryInt hi mx mn with e | nhi
                      · simp only [hthi] at heq; cases heq
                      · simp only [hthi] at heq
                        by_cases hz : step = 0
                        · rw [if_pos hz] at heq; cases heq
                        · rw [if_neg hz] at heq
                          injection heq with heq
                          subst heq
                          have hpos : 0 < step := Nat.pos_of_ne_zero hz
                          have hblo := tryInt_ok htlo
                          have hbhi := tryInt_ok hthi
                          exact ⟨fun x hx => by
                              have := rangeStep_bounds hpos x hx; omega,
                            rangeStep_pairwise hpos⟩
                  · simp only [hsp] at heq; cases heq
            · rw [if_neg hda] at heq; cases heq

/-- Claim C5 as amended: every element of a successfully parsed field
value set lies within the field bounds, and the set is strictly
ascending, hence duplicate-free.  (The set can be empty: a range whose
left side exceeds its right side, as in `5-2`, expands to nothing, so
the non-emptiness part of the original claim fails.) -/
theorem C5_field_invariant (expr : List Char) (mx mn step : Nat) (l : List Nat)
    (h : expression_to_list expr mx mn step = .ok l) :
    (∀ x ∈ l, mn ≤ x ∧ x ≤ mx) ∧ l.Pairwise (· < ·) :=
  etl_sorted_bounds (expr.length + 1) expr mx mn step l (Nat.lt_succ_self _) h

/-- Concrete instantiation of `C5_field_invariant` on the field `*/10`
with the minute bounds. -/
theorem C5_field_invariant_witness :
    (∀ x ∈ ([0, 10, 20, 30, 40, 50] : List Nat), 0 ≤ x ∧ x ≤ 59) ∧
    ([0, 10, 20, 30, 40, 50] : List Nat).Pairwise (· < ·) :=
  C5_field_invariant "*/10".toList 59 0 1 [0, 10, 20, 30, 40, 50] (by decide)

/-- A failed sequencing contains the error it reports. -/
theorem seqExcept_error_mem {α : Type} :
    ∀ {xs : List (Except PyErr α)} {e : PyErr}, seqExcept xs = .error e →
      Except.error e ∈ xs := by
  intro xs
  induction xs with
  | nil => intro e h; simp [seqExcept] at h
  | cons x xs ih =>
    intro e h
    simp only [seqExcept] at h
    rcases x with e' | a
    · injection h with h
      subst h
      exact List.mem_cons_self _ _
    · rcases hs : seqExcept xs with e' | rest
      · rw [hs] at h
        injection h with h
        subst h
        exact List.mem_cons_of_mem _ (ih hs)
      · rw [hs] at h; cases h

/-- A failed `_try_int` always raises `InvalidExpression`. -/
theorem tryInt_error {v : List Char} {mx mn : Nat} {e : PyErr}
    (h : tryInt v mx mn = .error e) : ∃ m, e = PyErr.invalidExpression m := by
  unfold tryInt at h
  rcases hv : pyInt v with _ | r
  · rw [hv] at h
    injection h with h
    exact ⟨_, h.symm⟩
  · simp only [hv] at h
    by_cases hcond : r < 0 ∨ (mn : Int) > r ∨ (mx : Int) < r
    · rw [if_pos hcond] at h
      injection h with h
      exact ⟨_, h.symm⟩
    · rw [if_neg hcond] at h; cases h

/-- Pointwise equal predicates give equal `all` results. -/
theorem all_congr_mem {α : Type} {p q : α → Bool} :
    ∀ {l : List α}, (∀ x ∈ l, p x = q x) → l.all p = l.all q := by
  intro l
  induction l with
  | nil => intro _; rfl
  | cons x xs ih =>
    intro h
    simp only [List.all_cons]
    rw [h x (List.mem_cons_self _ _), ih (fun y hy => h y (List.mem_cons_of_mem _ hy))]

/-- Sequencing succeeds exactly when every component succeeds. -/
theorem seqExcept_isOkB {α : Type} :
    ∀ (xs : List (Except PyErr α)), isOkB (seqExcept xs) = xs.all (fun x => isOkB x) := by
  intro xs
  induction xs with
  | nil => rfl
  | cons x xs ih =>
    simp only [seqExcept, List.all_cons]
    rcases x with e | a
    · simp [isOkB]
    · rcases hs : seqExcept xs with e | rest <;>
      · simp only [hs]
        rw [hs] at ih
        simp only [isOkB, Bool.true_and] at ih ⊢
        exact ih

/-- Every error of the field parser is an `InvalidExpression` except the
two plain `ValueError`s: tuple unpacking on a split with more than two
parts, and `range()` with a zero step. -/
theorem etl_error_class :
    ∀ (fuel : Nat) (expr : List Char) (mx mn step : Nat) (e : PyErr),
      expr.length < fuel → expression_to_list_fuel fuel expr mx mn step = .error e →
      (∃ m, e = PyErr.invalidExpression m) ∨
        e = PyErr.valueError "too many values to unpack (expected 2)" ∨
        e = PyErr.valueError "range() arg 3 must not be zero" := by
  intro fuel
  induction fuel with
  | zero => intro expr mx mn step e hlen; omega
  | succ fuel ih =>
    intro expr mx mn step e hlen heq
    simp only [expression_to_list_fuel] at heq
    by_cases hc : expr.contains ','
    · rw [if_pos hc] at heq
      have hcm : ',' ∈ expr := List.elem_iff.1 hc
      rcases hs : seqExcept ((splitOnChar ',' expr).map
          (fun sub => expression_to_list_fuel fuel sub mx mn step)) with e' | ls
      · simp only [hs] at heq
        injection heq with heq
        subst heq
        have hmem := seqExcept_error_mem hs
        rcases List.mem_map.1 hmem with ⟨sub, hsub, hsubeq⟩
        have hlt : sub.length < expr.length := splitOnChar_length_lt ',' expr hcm sub hsub
        exact ih sub mx mn step e' (by omega) hsubeq
      · simp only [hs] at heq; cases heq
    · rw [if_neg hc] at heq
      by_cases hstar : expr = ['*']
      · rw [if_pos hstar] at heq
        by_cases hz : step = 0
        · rw [if_pos hz] at heq
          injection heq with heq
          exact Or.inr (Or.inr heq.symm)
        · rw [if_neg hz] at heq; cases heq
      · rw [if_neg hstar] at heq
        by_cases hnum : isnumeric expr
        · rw [if_pos hnum] at heq
          rcases ht : tryInt expr mx mn with e' | n
          · simp only [ht] at heq
            injection heq with heq
            subst heq
            exact Or.inl (tryInt_error ht)
          · simp only [ht] at heq; cases heq
        · rw [if_neg hnum] at heq
          by_cases hsl : expr.contains '/'
          · rw [if_pos hsl] at heq
            have hslm : '/' ∈ expr := List.elem_iff.1 hsl
            rcases hsp : splitOnChar '/' expr with _ | ⟨lhs, rest⟩
            · simp only [hsp] at heq
              injection heq with heq
              exact Or.inr (Or.inl heq.symm)
            · rcases rest with _ | ⟨rhs, rest2⟩
              · simp only [hsp] at heq
                injection heq with heq
                exact Or.inr (Or.inl heq.symm)
              · rcases rest2 with _ | ⟨r3, rest3⟩
                · simp only [hsp] at heq
                  rcases ht : tryInt rhs mx mn with e' | rhs_step
                  · simp only [ht] at heq
                    injection heq with heq
                    subst heq
                    exact Or.inl (tryInt_error ht)
                  · simp only [ht] at heq
                    have hlt : lhs.length < expr.length :=
                      splitOnChar_length_lt '/' expr hslm lhs
                        (by rw [hsp]; exact List.mem_cons_self _ _)
                    exact ih lhs mx mn rhs_step e (by omega) heq
                · simp only [hsp] at heq
                  injection heq with heq
                  exact Or.inr (Or.inl heq.symm)
          · rw [if_neg hsl] at heq
            by_cases hda : expr.contains '-'
            · rw [if_pos hda] at heq
              rcases hsp : splitOnChar '-' expr with _ | ⟨lo, rest⟩
              · simp only [hsp] at heq
                injection heq with heq
                exact Or.inr (Or.inl heq.symm)
              · rcases rest with _ | ⟨hi, rest2⟩
                · simp only [hsp] at heq
                  injection heq with heq
                  exact Or.inr (Or.inl heq.symm)
                · rcases rest2 with _ | ⟨r3, rest3⟩
                  · simp only [hsp] at heq
                    rcases htlo : tryInt lo mx mn with e' | nlo
                    · simp only [htlo] at heq
                      injection heq with heq
                      subst heq
                      exact Or.inl (tryInt_error htlo)
                    · simp only [htlo] at heq
                      rcases hthi : tryInt hi mx mn with e' | nhi
                      · simp only [hthi] at heq
                        injection heq with heq
                        subst heq
                        exact Or.inl (tryInt_error hthi)
                      · simp only [hthi] at heq
                        by_cases hz : step = 0
                        · rw [if_pos hz] at heq
                          injection heq with heq
                          exact Or.inr (Or.inr heq.symm)
                        · rw [if_neg hz] at heq; cases heq
                  · simp only [hsp] at heq
                    injection heq with heq
                    exact Or.inr (Or.inl heq.symm)
            · rw [if_neg hda] at heq
              injection heq with heq
              exact Or.inl ⟨_, heq.symm⟩

/-- Success of `_try_int` as a Boolean condition on the parsed integer. -/
theorem tryInt_isOkB (v : List Char) (mx mn : Nat) :
    isOkB (tryInt v mx mn) =
      match pyInt v with
      | some r => decide (0 ≤ r ∧ (mn : Int) ≤ r ∧ r ≤ (mx : Int))
      | none => false := by
  unfold tryInt
  rcases hpy : pyInt v with _ | r
  · simp only [hpy]; rfl
  · simp only [hpy]
    by_cases hcond : r < 0 ∨ (mn : Int) > r ∨ (mx : Int) < r
    · simp only [if_pos hcond, isOkB]
      symm
      exact decide_eq_false (by omega)
    · simp only [if_neg hcond, isOkB]
      symm
      exact decide_eq_true (by omega)

/-- Taking `toNat` of a nonnegative integer preserves the zero test. -/
theorem toNat_beq_zero {r : Int} (h0 : 0 ≤ r) : (r.toNat == 0) = (r == 0) := by
  cases hbr : (r == 0)
  · rw [beq_eq_false_iff_ne] at hbr
    rw [beq_eq_false_iff_ne]
    omega
  · rw [beq_iff_eq] at hbr
    subst hbr
    rfl

/-- Sequencing mapped computations succeeds exactly when each does. -/
theorem seqExcept_map_isOkB {α β : Type} (f : β → Except PyErr α) (l : List β) :
    isOkB (seqExcept (l.map f)) = l.all (fun x => isOkB (f x)) := by
  rw [seqExcept_isOkB]
  induction l with
  | nil => rfl
  | cons x xs ih => simp only [List.map_cons, List.all_cons, ih]

/-- The implementation field parser succeeds exactly on the field texts
the spec calls well formed (with the ambient-step-zero refinement).
Fuel-general form. -/
theorem etl_isOk_iff_wf :
    ∀ (fuel : Nat) (expr : List Char) (mx mn step : Nat),
      expr.length < fuel →
      isOkB (expression_to_list_fuel fuel expr mx mn step) =
        wfField_fuel fuel expr mx mn (step == 0) := by
  intro fuel
  induction fuel with
  | zero => intro expr mx mn step hlen; omega
  | succ fuel ih =>
    intro expr mx mn step hlen
    simp only [expression_to_list_fuel, wfField_fuel]
    by_cases hc : expr.contains ','
    · rw [if_pos hc, if_pos hc]
      have hcm : ',' ∈ expr := List.elem_iff.1 hc
      have hall : (splitOnChar ',' expr).all
            (fun sub => isOkB (expression_to_list_fuel fuel sub mx mn step)) =
          (splitOnChar ',' expr).all
            (fun sub => wfField_fuel fuel sub mx mn (step == 0)) :=
        all_congr_mem (fun sub hsub => ih sub mx mn step
          (by have := splitOnChar_length_lt ',' expr hcm sub hsub; omega))
      have hseq := seqExcept_map_isOkB
        (fun sub => expression_to_list_fuel fuel sub mx mn step) (splitOnChar ',' expr)
      rcases hs : seqExcept ((splitOnChar ',' expr).map
          (fun sub => expression_to_list_fuel fuel sub mx mn step)) with e | ls <;>
      · simp only [hs]
        rw [hs] at hseq
        rw [← hall, ← hseq]
        rfl
    · rw [if_neg hc, if_neg hc]
      by_cases hstar : expr = ['*']
      · rw [if_pos hstar, if_pos hstar]
        by_cases hz : step = 0
        · subst hz
          rw [if_pos rfl]
          rfl
        · have hb : (step == 0) = false := by
            rw [beq_eq_false_iff_ne]; exact hz
          rw [if_neg hz, hb]
          rfl
      · rw [if_neg hstar, if_neg hstar]
        by_cases hnum : isnumeric expr
        · rw [if_pos hnum, if_pos hnum]
          have htb := tryInt_isOkB expr mx mn
          rcases ht : tryInt expr mx mn with e | n <;>
          · rw [ht] at htb
            simp only [ht]
            simpa [isOkB] using htb
        · rw [if_neg hnum, if_neg hnum]
          by_cases hsl : expr.contains '/'
          · rw [if_pos hsl, if_pos hsl]
            have hslm : '/' ∈ expr := List.elem_iff.1 hsl
            rcases hsp : splitOnChar '/' expr with _ | ⟨lhs, rest⟩
            · simp only [hsp]; rfl
            · rcases rest with _ | ⟨rhs, rest2⟩
              · simp only [hsp]; rfl
              · rcases rest2 with _ | ⟨r3, rest3⟩
                · simp only [hsp]
                  rcases hpy : pyInt rhs with _ | r
                  · have ht : tryInt rhs mx mn =
                        .error (.invalidExpression (String.mk rhs ++ " is not an integer")) := by
                      simp only [tryInt, hpy]
                    simp only [ht, hpy]
                    rfl
                  · simp only [hpy]
                    by_cases hcond : 0 ≤ r ∧ (mn : Int) ≤ r ∧ r ≤ (mx : Int)
                    · have ht : tryInt rhs mx mn = .ok r.toNat := by
                        simp only [tryInt, hpy]
                        rw [if_neg (by omega)]
                      simp only [ht, if_pos hcond]
                      have hlt : lhs.length < fuel := by
                        have := splitOnChar_length_lt '/' expr hslm lhs
                          (by rw [hsp]; exact List.mem_cons_self _ _)
                        omega
                      rw [ih lhs mx mn r.toNat hlt, toNat_beq_zero hcond.1]
                    · have ht : tryInt rhs mx mn = .error (.invalidExpression
                          (toString r ++ " is greater than " ++ toString mx ++
                            " or less than " ++ toString mn)) := by
                        simp only [tryInt, hpy]
                        rw [if_pos (by omega)]
                      simp only [ht, if_neg hcond]
                      rfl
                · simp only [hsp]; rfl
          · rw [if_neg hsl, if_neg hsl]
            by_cases hda : expr.contains '-'
            · rw [if_pos hda, if_pos hda]
              rcases hsp : splitOnChar '-' expr with _ | ⟨lo, rest⟩
              · simp only [hsp]; rfl
              · rcases rest with _ | ⟨hi, rest2⟩
                · simp only [hsp]; rfl
                · rcases rest2 with _ | ⟨r3, rest3⟩
                  · simp only [hsp]
                    rcases hpylo : pyInt lo with _ | a <;>
                      rcases hpyhi : pyInt hi with _ | b
                    · have ht : tryInt lo mx mn =
                          .error (.invalidExpression (String.mk lo ++ " is not an integer")) := by
                        simp only [tryInt, hpylo]
                      simp only [ht, isOkB]
                    · have ht : tryInt lo mx mn =
                          .error (.invalidExpression (String.mk lo ++ " is not an integer")) := by
                        simp only [tryInt, hpylo]
                      simp only [ht, isOkB]
                    · by_cases hconda : 0 ≤ a ∧ (mn : Int) ≤ a ∧ a ≤ (mx : Int)
                      · have hta : tryInt lo mx mn = .ok a.toNat := by
                          simp only [tryInt, hpylo]
                          rw [if_neg (by omega)]
                        have htb : tryInt hi mx mn =
                            .error (.invalidExpression
                              (String.mk hi ++ " is not an integer")) := by
                          simp only [tryInt, hpyhi]
                        simp only [hta, htb, isOkB]
                      · have hterr : tryInt lo mx mn = .error (.invalidExpression
                            (toString a ++ " is greater than " ++ toString mx ++
                              " or less than " ++ toString mn)) := by
                          simp only [tryInt, hpylo]
                          rw [if_pos (by omega)]
                        simp only [hterr, isOkB]
                    · by_cases hconda : 0 ≤ a ∧ (mn : Int) ≤ a ∧ a ≤ (mx : Int)
                      · have hta : tryInt lo mx mn = .ok a.toNat := by
                          simp only [tryInt, hpylo]
                          rw [if_neg (by omega)]
                        by_cases hcondb : 0 ≤ b ∧ (mn : Int) ≤ b ∧ b ≤ (mx : Int)
                        · have htbok : tryInt hi mx mn = .ok b.toNat := by
                            simp only [tryInt, hpyhi]
                            rw [if_neg (by omega)]
                          simp only [hta, htbok]
                          rw [decide_eq_true hconda, decide_eq_true hcondb]
                          by_cases hz : step = 0
                          · subst hz
                            rw [if_pos rfl]
                            rfl
                          · have hb : (step == 0) = false := by
                              rw [beq_eq_false_iff_ne]; exact hz
                            rw [if_neg hz, hb]
                            rfl
                        · have htberr : tryInt hi mx mn = .error (.invalidExpression
                              (toString b ++ " is greater than " ++ toString mx ++
                                " or less than " ++ toString mn)) := by
                            simp only [tryInt, hpyhi]
                            rw [if_pos (by omega)]
                          simp only [hta, htberr]
                          rw [decide_eq_false hcondb]
                          simp [isOkB]
                      · have hterr : tryInt lo mx mn = .error (.invalidExpression
                            (toString a ++ " is greater than " ++ toString mx ++
                              " or less than " ++ toString mn)) := by
                          simp only [tryInt, hpylo]
                          rw [if_pos (by omega)]
                        simp only [hterr]
                        rw [decide_eq_false hconda]
                        simp [isOkB]
                  · simp only [hsp]; rfl
            · rw [if_neg hda, if_neg hda]
              rfl

/-- Field-level success criterion at the natural fuel and the top-level
step of one. -/
theorem etl_isOk_wf (t : List Char) (mx mn : Nat) :
    isOkB (expression_to_list t mx mn 1) = wfField t mx mn false := by
  have h := etl_isOk_iff_wf (t.length + 1) t mx mn 1 (Nat.lt_succ_self _)
  simpa [expression_to_list, wfField] using h

/-- The five-field parse succeeds exactly when every field is well
formed for its bounds. -/
theorem parseFields_isOkB (me he dme moe dwe : List Char) :
    isOkB (parseFields me he dme moe dwe) =
      (wfField me 59 0 false && wfField he 23 0 false && wfField dme 31 1 false &&
        wfField moe 12 1 false && wfField (handle_text_day_week dwe) 6 0 false) := by
  simp only [parseFields]
  rw [← etl_isOk_wf me 59 0, ← etl_isOk_wf he 23 0, ← etl_isOk_wf dme 31 1,
    ← etl_isOk_wf moe 12 1, ← etl_isOk_wf (handle_text_day_week dwe) 6 0]
  rcases h1 : expression_to_list me 59 0 1 with e | minutes
  · simp [h1, isOkB]
  · simp only [h1]
    rcases h2 : expression_to_list he 23 0 1 with e | hours
    · simp [h2, isOkB]
    · simp only [h2]
      rcases h3 : expression_to_list dme 31 1 1 with e | day_months
      · simp [h3, isOkB]
      · simp only [h3]
        rcases h4 : expression_to_list moe 12 1 1 with e | months
        · simp [h4, isOkB]
        · simp only [h4]
          rcases h5 : expression_to_list (handle_text_day_week dwe) 6 0 1 with e | day_weeks
          · simp [h5, isOkB]
          · simp [h5, isOkB]

/-- Failures of the five-field parse come from one of the field parses. -/
theorem parseFields_error_class {me he dme moe dwe : List Char} {e : PyErr}
    (h : parseFields me he dme moe dwe = .error e) :
    (∃ m, e = PyErr.invalidExpression m) ∨
      e = PyErr.valueError "too many values to unpack (expected 2)" ∨
      e = PyErr.valueError "range() arg 3 must not be zero" := by
  have hcls : ∀ (t : List Char) (mx mn : Nat) (e' : PyErr),
      expression_to_list t mx mn 1 = .error e' →
      (∃ m, e' = PyErr.invalidExpression m) ∨
        e' = PyErr.valueError "too many values to unpack (expected 2)" ∨
        e' = PyErr.valueError "range() arg 3 must not be zero" :=
    fun t mx mn e' ht => etl_error_class (t.length + 1) t mx mn 1 e'
      (Nat.lt_succ_self _) ht
  simp only [parseFields] at h
  rcases h1 : expression_to_list me 59 0 1 with e1 | minutes
  · simp only [h1] at h
    injection h with h
    subst h
    exact hcls me 59 0 e1 h1
  · simp only [h1] at h
    rcases h2 : expression_to_list he 23 0 1 with e2 | hours
    · simp only [h2] at h
      injection h with h
      subst h
      exact hcls he 23 0 e2 h2
    · simp only [h2] at h
      rcases h3 : expression_to_list dme 31 1 1 with e3 | day_months
      · simp only [h3] at h
        injection h with h
        subst h
        exact hcls dme 31 1 e3 h3
      · simp only [h3] at h
        rcases h4 : expression_to_list moe 12 1 1 with e4 | months
        · simp only [h4] at h
          injection h with h
          subst h
          exact hcls moe 12 1 e4 h4
        · simp only [h4] at h
          rcases h5 : expression_to_list (handle_text_day_week dwe) 6 0 1 with e5 | day_weeks
          · simp only [h5] at h
            injection h with h
            subst h
            exact hcls (handle_text_day_week dwe) 6 0 e5 h5
          · simp only [h5] at h
            cases h

/-- Claim C3 as amended: parse is total, it succeeds exactly on the
well-formed expressions of spec section 4.1 (refined with the zero-step
rule), and every failure is an `InvalidExpression` except for two plain
`ValueError`s the claim missed: a field whose step or range split
yields more than two parts (tuple unpacking), and a zero step reaching
wildcard or range expansion (`range()`). -/
theorem C3_parse_outcomes :
    (∀ (s : String) (e : PyErr), parse s = .error e →
      (∃ m, e = PyErr.invalidExpression m) ∨
        e = PyErr.valueError "too many values to unpack (expected 2)" ∨
        e = PyErr.valueError "range() arg 3 must not be zero") ∧
    (∀ s : String, isOkB (parse s) = wellFormed s) := by
  constructor
  · intro s e h
    simp only [parse] at h
    rcases hsp : splitOnChar ' ' (((MACROS.lookup s).getD s) : String).toList with
      _ | ⟨me, _ | ⟨he, _ | ⟨dme, _ | ⟨moe, _ | ⟨dwe, _ | ⟨x6, rest⟩⟩⟩⟩⟩⟩ <;>
      simp only [hsp] at h
    · injection h with h; exact Or.inl ⟨_, h.symm⟩
    · injection h with h; exact Or.inl ⟨_, h.symm⟩
    · injection h with h; exact Or.inl ⟨_, h.symm⟩
    · injection h with h; exact Or.inl ⟨_, h.symm⟩
    · injection h with h; exact Or.inl ⟨_, h.symm⟩
    · exact parseFields_error_class h
    · injection h with h; exact Or.inl ⟨_, h.symm⟩
  · intro s
    simp only [parse, wellFormed]
    rcases hsp : splitOnChar ' ' (((MACROS.lookup s).getD s) : String).toList with
      _ | ⟨me, _ | ⟨he, _ | ⟨dme, _ | ⟨moe, _ | ⟨dwe, _ | ⟨x6, rest⟩⟩⟩⟩⟩⟩ <;>
      simp only [hsp]
    · rfl
    · rfl
    · rfl
    · rfl
    · rfl
    · exact parseFields_isOkB me he dme moe dwe
    · rfl

/-- Concrete instantiation of `C3_parse_outcomes`: classifying the
error on `1-2-3 * * * *` and evaluating the success criterion on
`* * * * *`. -/
theorem C3_parse_outcomes_witness :
    ((∃ m, PyErr.valueError "too many values to unpack (expected 2)" =
        PyErr.invalidExpression m) ∨
      PyErr.valueError "too many values to unpack (expected 2)" =
        PyErr.valueError "too many values to unpack (expected 2)" ∨
      PyErr.valueError "too many values to unpack (expected 2)" =
        PyErr.valueError "range() arg 3 must not be zero") ∧
    isOkB (parse "* * * * *") = wellFormed "* * * * *" :=
  ⟨C3_parse_outcomes.1 "1-2-3 * * * *" _ (by decide), C3_parse_outcomes.2 "* * * * *"⟩

/-- Weekday of day `d` from the weekday of the first of the month. -/
theorem weekday_from_first (y m d : Nat) :
    (weekday y m 1 + (d - 1)) % 7 = weekday y m d := by
  unfold weekday
  simp only [Nat.sub_self, Nat.add_zero]
  exact Nat.mod_add_mod _ _ _

/-- Characterization of the pairs produced by `itermonthdays2`: padding
entries have day zero, real entries carry the day and its weekday. -/
theorem mem_itermonthdays2 {y m : Nat} {p : Nat × Nat}
    (hp : p ∈ itermonthdays2 y m) :
    p.1 = 0 ∨ (1 ≤ p.1 ∧ p.1 ≤ monthLen y m ∧ p.2 = weekday y m p.1) := by
  unfold itermonthdays2 at hp
  simp only [List.mem_append, List.mem_map, List.mem_range] at hp
  rcases hp with (⟨j, hj, hpe⟩ | ⟨j, hj, hpe⟩) | ⟨j, hj, hpe⟩
  · left; rw [← hpe]
  · right
    rw [← hpe]
    refine ⟨Nat.le_add_left 1 j, by omega, ?_⟩
    show (weekday y m 1 + j) % 7 = weekday y m (j + 1)
    have := weekday_from_first y m (j + 1)
    simpa using this
  · left; rw [← hpe]

/-- Every real day of the month occurs in `itermonthdays2`, paired with
its weekday. -/
theorem itermonthdays2_mem {y m d : Nat} (hd1 : 1 ≤ d) (hd2 : d ≤ monthLen y m) :
    (d, weekday y m d) ∈ itermonthdays2 y m := by
  unfold itermonthdays2
  simp only [List.mem_append, List.mem_map, List.mem_range]
  left; right
  refine ⟨d - 1, by omega, ?_⟩
  have h1 : d - 1 + 1 = d := by omega
  have h2 := weekday_from_first y m d
  rw [h1, h2]

/-- Membership in one year pass of `Crontab.dates`: exactly the real
days of the listed months that survive the anchor filters and the POSIX
combination branch. -/
theorem mem_yearDates {c : Crontab} {anchor : Date} {y m d : Nat} :
    (⟨y, m, d⟩ : Date) ∈ yearDates c anchor ↔
      y = anchor.year ∧ m ∈ c.months ∧ anchor.month ≤ m ∧
      1 ≤ d ∧ d ≤ monthLen anchor.year m ∧
      (m = anchor.month → anchor.day ≤ d) ∧
      combRule c anchor.year m d := by
  constructor
  · intro h
    rcases List.mem_flatMap.1 h with ⟨month, hmonth, hin⟩
    by_cases hlt : month < anchor.month
    · rw [if_pos hlt] at hin
      cases hin
    · rw [if_neg hlt] at hin
      rcases List.mem_filterMap.1 hin with ⟨⟨d', w⟩, hp, hf⟩
      simp only [dayEmit] at hf
      by_cases hd0 : d' = 0
      · simp only [if_pos hd0] at hf
        cases hf
      · simp only [if_neg hd0] at hf
        by_cases hfl : month = anchor.month ∧ d' < anchor.day
        · simp only [if_pos hfl] at hf
          cases hf
        · simp only [if_neg hfl] at hf
          rcases mem_itermonthdays2 hp with h0 | ⟨hd1, hd2, hw⟩
          · exact absurd h0 hd0
          simp only at hd1 hd2 hw
          subst hw
          have hout : y = anchor.year ∧ month = m ∧ d' = d ∧
              combRule c anchor.year month d' := by
            by_cases hast1 : c.day_of_week_asterisk
            · rw [if_pos hast1] at hf
              by_cases hdom : c.day_of_month.contains d'
              · rw [if_pos hdom] at hf
                simp only [Option.some_inj, Date.mk.injEq] at hf
                refine ⟨hf.1.symm, hf.2.1, hf.2.2, ?_⟩
                rw [combRule, if_pos hast1]
                exact List.elem_iff.1 hdom
              · rw [if_neg hdom] at hf
                cases hf
            · rw [if_neg hast1] at hf
              by_cases hast2 : c.day_of_month_asterisk
              · rw [if_pos hast2] at hf
                by_cases hdow : c.day_of_week.contains
                    (day_of_week_to_cron (weekday anchor.year month d'))
                · rw [if_pos hdow] at hf
                  simp only [Option.some_inj, Date.mk.injEq] at hf
                  refine ⟨hf.1.symm, hf.2.1, hf.2.2, ?_⟩
                  rw [combRule, if_neg hast1, if_pos hast2]
                  exact List.elem_iff.1 hdow
                · rw [if_neg hdow] at hf
                  cases hf
              · rw [if_neg hast2] at hf
                by_cases hor : c.day_of_month.contains d' = true ∨
                    c.day_of_week.contains
                      (day_of_week_to_cron (weekday anchor.year month d')) = true
                · rw [if_pos hor] at hf
                  simp only [Option.some_inj, Date.mk.injEq] at hf
                  refine ⟨hf.1.symm, hf.2.1, hf.2.2, ?_⟩
                  rw [combRule, if_neg hast1, if_neg hast2]
                  rcases hor with hor | hor
                  · exact Or.inl (List.elem_iff.1 hor)
                  · exact Or.inr (List.elem_iff.1 hor)
                · rw [if_neg hor] at hf
                  cases hf
          obtain ⟨hy, hmm, hdd, hcomb⟩ := hout
          rw [hmm] at hmonth hlt
          rw [hmm, hdd] at hcomb hd2 hfl
          rw [hdd] at hd1
          refine ⟨hy, hmonth, by omega, hd1, hd2, ?_, hcomb⟩
          intro hma
          by_cases hda : anchor.day ≤ d
          · exact hda
          · exact absurd ⟨hma, by omega⟩ hfl
  · rintro ⟨hy, hm, hmle, hd1, hd2, hdfl, hcomb⟩
    subst hy
    apply List.mem_flatMap.2
    refine ⟨m, hm, ?_⟩
    rw [if_neg (by omega)]
    apply List.mem_filterMap.2
    refine ⟨(d, weekday anchor.year m d), itermonthdays2_mem hd1 hd2, ?_⟩
    simp only [dayEmit]
    rw [if_neg (show ¬ d = 0 by omega)]
    have hnf : ¬ (m = anchor.month ∧ d < anchor.day) := by
      rintro ⟨hma, hlt⟩
      have := hdfl hma
      omega
    rw [if_neg hnf]
    by_cases hast1 : c.day_of_week_asterisk
    · rw [combRule, if_pos hast1] at hcomb
      simp only [if_pos hast1]
      rw [if_pos (show c.day_of_month.contains d = true from List.elem_iff.2 hcomb)]
    · rw [combRule, if_neg hast1] at hcomb
      simp only [if_neg hast1]
      by_cases hast2 : c.day_of_month_asterisk
      · rw [if_pos hast2] at hcomb
        simp only [if_pos hast2]
        rw [if_pos (show c.day_of_week.contains
            (day_of_week_to_cron (weekday anchor.year m d)) = true from
          List.elem_iff.2 hcomb)]
      · rw [if_neg hast2] at hcomb
        simp only [if_neg hast2]
        rcases hcomb with hcomb | hcomb
        · rw [if_pos (Or.inl (List.elem_iff.2 hcomb))]
        · rw [if_pos (Or.inr (List.elem_iff.2 hcomb))]

/-- The five value sets of a schedule produced by `parse` satisfy the
field invariant: elements within bounds and strictly ascending. -/
theorem parse_ok_inv {s : String} {c : Crontab} (h : parse s = .ok c) :
    ((∀ x ∈ c.minutes, x ≤ 59) ∧ c.minutes.Pairwise (· < ·)) ∧
    ((∀ x ∈ c.hours, x ≤ 23) ∧ c.hours.Pairwise (· < ·)) ∧
    ((∀ x ∈ c.day_of_month, 1 ≤ x ∧ x ≤ 31) ∧ c.day_of_month.Pairwise (· < ·)) ∧
    ((∀ x ∈ c.months, 1 ≤ x ∧ x ≤ 12) ∧ c.months.Pairwise (· < ·)) ∧
    ((∀ x ∈ c.day_of_week, x ≤ 6) ∧ c.day_of_week.Pairwise (· < ·)) := by
  have hinv : ∀ (t : List Char) (mx mn : Nat) (l : List Nat),
      expression_to_list t mx mn 1 = .ok l →
      (∀ x ∈ l, mn ≤ x ∧ x ≤ mx) ∧ l.Pairwise (· < ·) :=
    fun t mx mn l ht => etl_sorted_bounds (t.length + 1) t mx mn 1 l (Nat.lt_succ_self _) ht
  have hpf : ∃ me he dme moe dwe, parseFields me he dme moe dwe = .ok c := by
    simp only [parse] at h
    rcases hsp : splitOnChar ' ' (((MACROS.lookup s).getD s) : String).toList with
      _ | ⟨me, _ | ⟨he, _ | ⟨dme, _ | ⟨moe, _ | ⟨dwe, _ | ⟨x6, rest⟩⟩⟩⟩⟩⟩ <;>
      simp only [hsp] at h
    · cases h
    · cases h
    · cases h
    · cases h
    · cases h
    · exact ⟨me, he, dme, moe, dwe, h⟩
    · cases h
  rcases hpf with ⟨me, he, dme, moe, dwe, hpf⟩
  simp only [parseFields] at hpf
  rcases h1 : expression_to_list me 59 0 1 with e | minutes
  · simp only [h1] at hpf; cases hpf
  · simp only [h1] at hpf
    rcases h2 : expression_to_list he 23 0 1 with e | hours
    · simp only [h2] at hpf; cases hpf
    · simp only [h2] at hpf
      rcases h3 : expression_to_list dme 31 1 1 with e | day_months
      · simp only [h3] at hpf; cases hpf
      · simp only [h3] at hpf
        rcases h4 : expression_to_list moe 12 1 1 with e | months
        · simp only [h4] at hpf; cases hpf
        · simp only [h4] at hpf
          rcases h5 : expression_to_list (handle_text_day_week dwe) 6 0 1 with e | day_weeks
          · simp only [h5] at hpf; cases hpf
          · simp only [h5] at hpf
            injection hpf with hpf
            subst hpf
            have i1 := hinv me 59 0 minutes h1
            have i2 := hinv he 23 0 hours h2
            have i3 := hinv dme 31 1 day_months h3
            have i4 := hinv moe 12 1 months h4
            have i5 := hinv (handle_text_day_week dwe) 6 0 day_weeks h5
            exact ⟨⟨fun x hx => (i1.1 x hx).2, i1.2⟩, ⟨fun x hx => (i2.1 x hx).2, i2.2⟩,
              ⟨i3.1, i3.2⟩, ⟨i4.1, i4.2⟩, ⟨fun x hx => (i5.1 x hx).2, i5.2⟩⟩

/-- Membership in the first `k` year passes of `Crontab.dates`, for a
candidate month at least 1 (every parsed schedule has such months). -/
theorem mem_datesUpTo {c : Crontab} {anchor : Date} {k y m d : Nat}
    (hm1 : 1 ≤ m) (hy1 : anchor.year ≤ y) (hy2 : y < anchor.year + k) :
    ((⟨y, m, d⟩ : Date) ∈ datesUpTo c anchor k ↔
      m ∈ c.months ∧ 1 ≤ d ∧ d ≤ monthLen y m ∧
      (y = anchor.year → anchor.month ≤ m ∧ (m = anchor.month → anchor.day ≤ d)) ∧
      combRule c y m d) := by
  constructor
  · intro h
    rcases List.mem_flatMap.1 h with ⟨i, hi, hin⟩
    rw [List.mem_range] at hi
    by_cases hi0 : i = 0
    · subst hi0
      rw [show anchorFor anchor 0 = anchor from rfl] at hin
      rcases mem_yearDates.1 hin with ⟨hy, hmm, hmle, hd1, hd2, hdge, hcomb⟩
      subst hy
      exact ⟨hmm, hd1, hd2, fun _ => ⟨hmle, fun hma => hdge hma⟩, hcomb⟩
    · rw [show anchorFor anchor i = ⟨anchor.year + i, 1, 1⟩ by
        simp [anchorFor, hi0]] at hin
      rcases mem_yearDates.1 hin with ⟨hy, hmm, hmle, hd1, hd2, hdge, hcomb⟩
      simp only at hy hmle hd2 hdge hcomb
      subst hy
      refine ⟨hmm, hd1, hd2, fun hcontr => absurd hcontr (by omega), hcomb⟩
  · rintro ⟨hm, hd1, hd2, hfy, hcomb⟩
    apply List.mem_flatMap.2
    refine ⟨y - anchor.year, List.mem_range.2 (by omega), ?_⟩
    by_cases hi0 : y - anchor.year = 0
    · rw [hi0, show anchorFor anchor 0 = anchor from rfl]
      have hya : y = anchor.year := by omega
      subst hya
      rcases hfy rfl with ⟨hmle, hdge⟩
      exact mem_yearDates.2 ⟨rfl, hm, hmle, hd1, hd2, hdge, hcomb⟩
    · rw [show anchorFor anchor (y - anchor.year) = ⟨anchor.year + (y - anchor.year), 1, 1⟩ by
        simp [anchorFor, hi0]]
      have hyy : anchor.year + (y - anchor.year) = y := by omega
      rw [hyy]
      exact mem_yearDates.2 ⟨rfl, hm, hm1, hd1, hd2, fun _ => hd1, hcomb⟩

/-- Claim C1: for a parsed schedule, a candidate day (month in the
month set, a real day of that month, surviving the start lower-bound
filters, within the first `k` year passes) is emitted by `dates` if and
only if it satisfies the POSIX combination rule with the cron
day-of-week conversion `(calendar weekday + 1) mod 7`. -/
theorem C1_combination_rule (s : String) (c : Crontab) (hc : parse s = .ok c)
    (anchor : Date) (k y m d : Nat)
    (hy1 : anchor.year ≤ y) (hy2 : y < anchor.year + k)
    (hm : m ∈ c.months) (hd1 : 1 ≤ d) (hd2 : d ≤ monthLen y m)
    (hfy : y = anchor.year → anchor.month ≤ m ∧ (m = anchor.month → anchor.day ≤ d)) :
    ((⟨y, m, d⟩ : Date) ∈ datesUpTo c anchor k ↔ combRule c y m d) := by
  have hm1 : 1 ≤ m := ((parse_ok_inv hc).2.2.2.1.1 m hm).1
  rw [mem_datesUpTo hm1 hy1 hy2]
  constructor
  · intro h
    exact h.2.2.2.2
  · intro h
    exact ⟨hm, hd1, hd2, hfy, h⟩

/-- Concrete instantiation of `C1_combination_rule`: with the schedule
`0 0 3 * 5` from 2022-01-01, the date 2022-01-07 (a Friday, cron
day-of-week 5) is emitted because the combination rule holds. -/
theorem C1_combination_rule_witness :
    (⟨2022, 1, 7⟩ : Date) ∈ datesUpTo
      ⟨[0], [0], [3], [1, 2, 3, 4, 5, 6, 7, 8, 9, 10, 11, 12], [5], false, false⟩
      ⟨2022, 1, 1⟩ 1 :=
  (C1_combination_rule "0 0 3 * 5"
      ⟨[0], [0], [3], [1, 2, 3, 4, 5, 6, 7, 8, 9, 10, 11, 12], [5], false, false⟩
      (by decide) ⟨2022, 1, 1⟩ 1 2022 1 7 (by decide) (by decide) (by decide)
      (by decide) (by decide) (fun _ => ⟨by decide, fun _ => by decide⟩)).2
    (by decide)

/-- Structure equality on dates, fieldwise. -/
theorem Date.eq_iff {a b : Date} :
    a = b ↔ (a.year = b.year ∧ a.month = b.month ∧ a.day = b.day) := by
  rcases a with ⟨ay, am, ad⟩
  rcases b with ⟨by_, bm, bd⟩
  simp [Date.mk.injEq]

/-- Every date produced by `Crontab.dates` is at or after the start
date: the first year is filtered by the start month and day, and later
years are strictly greater. -/
theorem datesUpTo_ge (c : Crontab) (anchor : Date) (k : Nat) :
    ∀ dt ∈ datesUpTo c anchor k, Date.le anchor dt := by
  intro dt hdt
  rcases dt with ⟨y, m, d⟩
  rcases List.mem_flatMap.1 hdt with ⟨i, hi, hin⟩
  by_cases hi0 : i = 0
  · subst hi0
    rw [show anchorFor anchor 0 = anchor from rfl] at hin
    rcases mem_yearDates.1 hin with ⟨hy, _, hmle, hd1, _, hdge, _⟩
    subst hy
    by_cases hme : m = anchor.month
    · have hd := hdge hme
      simp [Date.le, Date.lt, Date.eq_iff]
      omega
    · simp [Date.le, Date.lt, Date.eq_iff]
      omega
  · rw [show anchorFor anchor i = ⟨anchor.year + i, 1, 1⟩ by
      simp [anchorFor, hi0]] at hin
    rcases mem_yearDates.1 hin with ⟨hy, _, _, _, _, _, _⟩
    simp only at hy
    subst hy
    simp [Date.le, Date.lt, Date.eq_iff]
    omega

/-- Every datetime produced by `Crontab.date_times` is at or after the
start instant: dates are filtered by `dates`, hours before the start
hour are skipped on the start day, and minutes before the start minute
are skipped in the start hour. -/
theorem dateTimes_ge_start (c : Crontab) (start : DateTime) (k : Nat) (x : DateTime)
    (hx : x ∈ dateTimesUpTo c start k) : DateTime.le start x := by
  rcases List.mem_flatMap.1 hx with ⟨day, hday, hx2⟩
  have hdle : Date.le start.dateOf day := datesUpTo_ge c start.dateOf k day hday
  rcases List.mem_flatMap.1 hx2 with ⟨hour, hhour, hx3⟩
  by_cases hskip : day = start.dateOf ∧ hour < start.hour
  · rw [if_pos hskip] at hx3
    cases hx3
  · rw [if_neg hskip] at hx3
    rcases List.mem_filterMap.1 hx3 with ⟨minute, hmin, hf⟩
    by_cases hskip2 : (day = start.dateOf ∧ hour = start.hour) ∧ minute < start.minute
    · rw [if_pos hskip2] at hf
      cases hf
    · rw [if_neg hskip2] at hf
      simp only [Option.some_inj] at hf
      subst hf
      rcases hdle with hlt | heq
      · exact Or.inl (Or.inl hlt)
      · have hde : start.dateOf =
            (⟨day.year, day.month, day.day, hour, minute⟩ : DateTime).dateOf := heq
        have h1 : start.hour ≤ hour := by
          by_cases hlth : hour < start.hour
          · exact absurd ⟨heq.symm, hlth⟩ hskip
          · omega
        rcases Nat.lt_or_ge start.hour hour with hh | hh
        · exact Or.inl (Or.inr ⟨hde, Or.inl hh⟩)
        · have hhe : hour = start.hour := by omega
          have h2 : start.minute ≤ minute := by
            by_cases hltm : minute < start.minute
            · exact absurd ⟨⟨heq.symm, hhe⟩, hltm⟩ hskip2
            · omega
          rcases Nat.lt_or_ge start.minute minute with hm2 | hm2
          · exact Or.inl (Or.inr ⟨hde, Or.inr ⟨hhe.symm, hm2⟩⟩)
          · have hme : minute = start.minute := by omega
            right
            rcases start with ⟨sy, sm2, sd, sh, smin⟩
            rcases day with ⟨dy, dm, dd⟩
            simp only [DateTime.dateOf, Date.mk.injEq] at heq
            subst hhe hme
            simp [DateTime.mk.injEq, heq.1, heq.2.1, heq.2.2]

/-- Claim C2: whenever `date_times(start)` yields an element, that
element (in particular the first one) is an instant at or after
`start`, in the chronological order on (date, hour, minute). -/
theorem C2_first_ge_start (c : Crontab) (start : DateTime) (k : Nat) (x : DateTime)
    (hx : (dateTimesUpTo c start k).head? = some x) : DateTime.le start x := by
  rcases List.head?_eq_some_iff.1 hx with ⟨ys, hys⟩
  exact dateTimes_ge_start c start k x (by rw [hys]; exact List.mem_cons_self _ _)

set_option maxHeartbeats 1000000 in
/-- Concrete instantiation of `C2_first_ge_start`: the schedule
`0 0 1 1 *` started at 2022-01-01 00:00 first fires at that same
instant, which is not before the start. -/
theorem C2_first_ge_start_witness :
    DateTime.le ⟨2022, 1, 1, 0, 0⟩ ⟨2022, 1, 1, 0, 0⟩ :=
  C2_first_ge_start ⟨[0], [0], [1], [1], [0], true, true⟩
    ⟨2022, 1, 1, 0, 0⟩ 1 ⟨2022, 1, 1, 0, 0⟩ (by decide)

/-- Shape of an emitted day: the anchor year, the bound month, and the
(nonzero) day of the pair. -/
theorem dayEmit_some {c : Crontab} {anchor : Date} {month : Nat} {p : Nat × Nat}
    {dt : Date} (h : dayEmit c anchor month p = some dt) :
    dt.year = anchor.year ∧ dt.month = month ∧ dt.day = p.1 ∧ p.1 ≠ 0 := by
  simp only [dayEmit] at h
  by_cases hd0 : p.1 = 0
  · rw [if_pos hd0] at h; cases h
  · rw [if_neg hd0] at h
    by_cases hfl : month = anchor.month ∧ p.1 < anchor.day
    · rw [if_pos hfl] at h; cases h
    · rw [if_neg hfl] at h
      by_cases hast1 : c.day_of_week_asterisk
      · rw [if_pos hast1] at h
        by_cases hdom : c.day_of_month.contains p.1
        · rw [if_pos hdom] at h
          simp only [Option.some_inj] at h
          subst h
          exact ⟨rfl, rfl, rfl, hd0⟩
        · rw [if_neg hdom] at h; cases h
      · rw [if_neg hast1] at h
        by_cases hast2 : c.day_of_month_asterisk
        · rw [if_pos hast2] at h
          by_cases hdow : c.day_of_week.contains (day_of_week_to_cron p.2)
          · rw [if_pos hdow] at h
            simp only [Option.some_inj] at h
            subst h
            exact ⟨rfl, rfl, rfl, hd0⟩
          · rw [if_neg hdow] at h; cases h
        · rw [if_neg hast2] at h
          by_cases hor : c.day_of_month.contains p.1 = true ∨
              c.day_of_week.contains (day_of_week_to_cron p.2) = true
          · rw [if_pos hor] at h
            simp only [Option.some_inj] at h
            subst h
            exact ⟨rfl, rfl, rfl, hd0⟩
          · rw [if_neg hor] at h; cases h

/-- The pairs of `itermonthdays2` have ascending days once the padding
zero entries are ignored. -/
theorem itermonthdays2_pairwise (y m : Nat) :
    (itermonthdays2 y m).Pairwise (fun p q => p.1 ≠ 0 → q.1 ≠ 0 → p.1 < q.1) := by
  simp only [itermonthdays2]
  refine List.pairwise_append.2 ⟨List.pairwise_append.2 ⟨?_, ?_, ?_⟩, ?_, ?_⟩
  · exact List.pairwise_map.2 ((List.pairwise_lt_range _).imp
      (fun _ h0 => absurd rfl h0))
  · refine List.pairwise_map.2 ((List.pairwise_lt_range _).imp ?_)
    intro a b hab
    intro _ _
    omega
  · intro x hx y hy
    rcases List.mem_map.1 hx with ⟨j, _, hj⟩
    intro h0 _
    rw [← hj] at h0
    exact absurd rfl h0
  · exact List.pairwise_map.2 ((List.pairwise_lt_range _).imp
      (fun _ h0 => absurd rfl h0))
  · intro x hx y hy
    rcases List.mem_map.1 hy with ⟨j, _, hj⟩
    intro _ h0
    rw [← hj] at h0
    exact absurd rfl h0

/-- One year pass emits strictly ascending dates when the month set is
strictly ascending. -/
theorem yearDates_pairwise (c : Crontab) (anchor : Date)
    (hms : c.months.Pairwise (· < ·)) : (yearDates c anchor).Pairwise Date.lt := by
  unfold yearDates
  refine List.pairwise_flatMap.2 ⟨?_, ?_⟩
  · intro month _
    by_cases hlt : month < anchor.month
    · rw [if_pos hlt]; exact List.Pairwise.nil
    · rw [if_neg hlt]
      refine List.pairwise_filterMap.2 ((itermonthdays2_pairwise anchor.year month).imp ?_)
      intro p q hpq x hx y hy
      have h1 := dayEmit_some (Option.mem_def.1 hx)
      have h2 := dayEmit_some (Option.mem_def.1 hy)
      have hdlt : p.1 < q.1 := hpq h1.2.2.2 h2.2.2.2
      show Date.lt x y
      simp only [Date.lt]
      omega
  · refine hms.imp ?_
    intro m1 m2 hlt x hx y hy
    by_cases h1 : m1 < anchor.month
    · rw [if_pos h1] at hx; cases hx
    · rw [if_neg h1] at hx
      by_cases h2 : m2 < anchor.month
      · rw [if_pos h2] at hy; cases hy
      · rw [if_neg h2] at hy
        rcases List.mem_filterMap.1 hx with ⟨p, _, hpf⟩
        rcases List.mem_filterMap.1 hy with ⟨q, _, hqf⟩
        have e1 := dayEmit_some hpf
        have e2 := dayEmit_some hqf
        show Date.lt x y
        simp only [Date.lt]
        omega

/-- Every date of a year pass carries the anchor year. -/
theorem yearDates_year (c : Crontab) (a : Date) :
    ∀ dt ∈ yearDates c a, dt.year = a.year := by
  intro dt hdt
  rcases List.mem_flatMap.1 hdt with ⟨month, _, hin⟩
  by_cases hlt : month < a.month
  · rw [if_pos hlt] at hin; cases hin
  · rw [if_neg hlt] at hin
    rcases List.mem_filterMap.1 hin with ⟨p, _, hpf⟩
    exact (dayEmit_some hpf).1

/-- Year of the anchor used by the `i`-th pass. -/
theorem anchorFor_year (a : Date) (i : Nat) :
    (anchorFor a i).year = if i = 0 then a.year else a.year + i := by
  unfold anchorFor
  split <;> rfl

/-- The whole date sequence is strictly ascending when the month set
is. -/
theorem datesUpTo_pairwise (c : Crontab) (anchor : Date) (k : Nat)
    (hms : c.months.Pairwise (· < ·)) :
    (datesUpTo c anchor k).Pairwise Date.lt := by
  unfold datesUpTo
  refine List.pairwise_flatMap.2 ⟨fun i _ => yearDates_pairwise c _ hms, ?_⟩
  refine (List.pairwise_lt_range k).imp ?_
  intro i j hij x hx y hy
  have hx1 : x.year = (anchorFor anchor i).year := yearDates_year _ _ x hx
  have hy1 : y.year = (anchorFor anchor j).year := yearDates_year _ _ y hy
  have hj0 : j ≠ 0 := by omega
  have hyj : (anchorFor anchor j).year = anchor.year + j := by
    rw [anchorFor_year, if_neg hj0]
  have hxi : (anchorFor anchor i).year ≤ anchor.year + i := by
    rw [anchorFor_year]
    by_cases hi0 : i = 0
    · rw [if_pos hi0]; omega
    · rw [if_neg hi0]
  show Date.lt x y
  simp only [Date.lt]
  omega

/-- Every datetime of a day pass carries the date of that day. -/
theorem timesForDay_date (c : Crontab) (anchor : DateTime) (day : Date) :
    ∀ x ∈ timesForDay c anchor day,
      x.year = day.year ∧ x.month = day.month ∧ x.day = day.day := by
  intro x hx
  rcases List.mem_flatMap.1 hx with ⟨hour, _, hx2⟩
  by_cases hskip : day = anchor.dateOf ∧ hour < anchor.hour
  · rw [if_pos hskip] at hx2; cases hx2
  · rw [if_neg hskip] at hx2
    rcases List.mem_filterMap.1 hx2 with ⟨minute, _, hf⟩
    by_cases hskip2 : (day = anchor.dateOf ∧ hour = anchor.hour) ∧ minute < anchor.minute
    · rw [if_pos hskip2] at hf; cases hf
    · rw [if_neg hskip2] at hf
      simp only [Option.some_inj] at hf
      subst hf
      exact ⟨rfl, rfl, rfl⟩

/-- The datetimes emitted for one day are strictly ascending when the
hour and minute sets are. -/
theorem timesForDay_pairwise (c : Crontab) (anchor : DateTime) (day : Date)
    (hh : c.hours.Pairwise (· < ·)) (hm : c.minutes.Pairwise (· < ·)) :
    (timesForDay c anchor day).Pairwise DateTime.lt := by
  unfold timesForDay
  refine List.pairwise_flatMap.2 ⟨?_, ?_⟩
  · intro hour _
    by_cases hskip : day = anchor.dateOf ∧ hour < anchor.hour
    · rw [if_pos hskip]; exact List.Pairwise.nil
    · rw [if_neg hskip]
      refine List.pairwise_filterMap.2 (hm.imp ?_)
      intro m1 m2 hlt x hx y hy
      by_cases hc1 : (day = anchor.dateOf ∧ hour = anchor.hour) ∧ m1 < anchor.minute
      · rw [if_pos hc1] at hx; cases hx
      · rw [if_neg hc1] at hx
        by_cases hc2 : (day = anchor.dateOf ∧ hour = anchor.hour) ∧ m2 < anchor.minute
        · rw [if_pos hc2] at hy; cases hy
        · rw [if_neg hc2] at hy
          rcases hx with ⟨⟩
          rcases hy with ⟨⟩
          exact Or.inr ⟨rfl, Or.inr ⟨rfl, hlt⟩⟩
  · refine hh.imp ?_
    intro h1 h2 hlt x hx y hy
    by_cases hs1 : day = anchor.dateOf ∧ h1 < anchor.hour
    · rw [if_pos hs1] at hx; cases hx
    · rw [if_neg hs1] at hx
      by_cases hs2 : day = anchor.dateOf ∧ h2 < anchor.hour
      · rw [if_pos hs2] at hy; cases hy
      · rw [if_neg hs2] at hy
        rcases List.mem_filterMap.1 hx with ⟨m1, _, hf1⟩
        rcases List.mem_filterMap.1 hy with ⟨m2, _, hf2⟩
        by_cases hc1 : (day = anchor.dateOf ∧ h1 = anchor.hour) ∧ m1 < anchor.minute
        · rw [if_pos hc1] at hf1; cases hf1
        · rw [if_neg hc1] at hf1
          simp only [Option.some_inj] at hf1
          subst hf1
          by_cases hc2 : (day = anchor.dateOf ∧ h2 = anchor.hour) ∧ m2 < anchor.minute
          · rw [if_pos hc2] at hf2; cases hf2
          · rw [if_neg hc2] at hf2
            simp only [Option.some_inj] at hf2
            subst hf2
            exact Or.inr ⟨rfl, Or.inl hlt⟩

/-- The whole datetime sequence is strictly ascending when the month,
hour and minute sets are. -/
theorem dateTimesUpTo_pairwise (c : Crontab) (start : DateTime) (k : Nat)
    (hms : c.months.Pairwise (· < ·)) (hh : c.hours.Pairwise (· < ·))
    (hm : c.minutes.Pairwise (· < ·)) :
    (dateTimesUpTo c start k).Pairwise DateTime.lt := by
  unfold dateTimesUpTo
  refine List.pairwise_flatMap.2
    ⟨fun day _ => timesForDay_pairwise c start day hh hm, ?_⟩
  refine (datesUpTo_pairwise c start.dateOf k hms).imp ?_
  intro d1 d2 hlt x hx y hy
  have e1 := timesForDay_date c start d1 x hx
  have e2 := timesForDay_date c start d2 y hy
  have hxd : x.dateOf = d1 := Date.eq_iff.2 ⟨e1.1, e1.2.1, e1.2.2⟩
  have hyd : y.dateOf = d2 := Date.eq_iff.2 ⟨e2.1, e2.2.1, e2.2.2⟩
  exact Or.inl (by rw [hxd, hyd]; exact hlt)

/-- Claim C7: for every parsed schedule, the `dates` sequence is
strictly ascending in calendar order, and the `date_times` sequence is
strictly ascending in (date, hour, minute) order, for every start and
any number of year passes. -/
theorem C7_strictly_ascending (s : String) (c : Crontab) (hc : parse s = .ok c)
    (anchor : Date) (start : DateTime) (k : Nat) :
    (datesUpTo c anchor k).Pairwise Date.lt ∧
    (dateTimesUpTo c start k).Pairwise DateTime.lt := by
  obtain ⟨⟨_, hmin⟩, ⟨_, hhr⟩, _, ⟨_, hmon⟩, _⟩ := parse_ok_inv hc
  exact ⟨datesUpTo_pairwise c anchor k hmon,
    dateTimesUpTo_pairwise c start k hmon hhr hmin⟩

set_option maxHeartbeats 1000000 in
/-- Concrete instantiation of `C7_strictly_ascending` on the schedule
`0 0 1 1 *`. -/
theorem C7_strictly_ascending_witness :
    (datesUpTo ⟨[0], [0], [1], [1], [0, 1, 2, 3, 4, 5, 6], false, true⟩
      ⟨2022, 1, 1⟩ 1).Pairwise Date.lt ∧
    (dateTimesUpTo ⟨[0], [0], [1], [1], [0, 1, 2, 3, 4, 5, 6], false, true⟩
      ⟨2022, 1, 1, 0, 0⟩ 1).Pairwise DateTime.lt :=
  C7_strictly_ascending "0 0 1 1 *"
    ⟨[0], [0], [1], [1], [0, 1, 2, 3, 4, 5, 6], false, true⟩ (by decide)
    ⟨2022, 1, 1⟩ ⟨2022, 1, 1, 0, 0⟩ 1

/-- Leap years repeat with period 400. -/
theorem isleap_add_400 (y : Nat) : isleap (y + 400) = isleap y := by
  unfold isleap
  have h4 : (y + 400) % 4 = y % 4 := by omega
  have h100 : (y + 400) % 100 = y % 100 := by omega
  have h400 : (y + 400) % 400 = y % 400 := by omega
  rw [h4, h100, h400]

/-- Month lengths repeat with period 400 years. -/
theorem monthLen_add_400 (y m : Nat) : monthLen (y + 400) m = monthLen y m := by
  unfold monthLen
  rw [isleap_add_400]

/-- Day counts before a month repeat with period 400 years. -/
theorem daysBeforeMonth_add_400 (y m : Nat) :
    daysBeforeMonth (y + 400) m = daysBeforeMonth y m := by
  induction m with
  | zero => rfl
  | succ n ih =>
    cases n with
    | zero => rfl
    | succ k =>
      show daysBeforeMonth (y + 400) (k + 2) = daysBeforeMonth y (k + 2)
      simp only [daysBeforeMonth]
      rw [ih, monthLen_add_400]

/-- The Gregorian cycle: 400 years are exactly 146097 days. -/
theorem daysBeforeYear_add_400 (y : Nat) (hy : 1 ≤ y) :
    daysBeforeYear (y + 400) = daysBeforeYear y + 146097 := by
  unfold daysBeforeYear
  omega

/-- Weekdays repeat with period 400 years (146097 is a multiple of 7). -/
theorem weekday_add_400 (y m d : Nat) (hy : 1 ≤ y) :
    weekday (y + 400) m d = weekday y m d := by
  unfold weekday
  rw [daysBeforeYear_add_400 y hy, daysBeforeMonth_add_400]
  omega

/-- The combination rule repeats with period 400 years. -/
theorem combRule_add_400 {c : Crontab} {y m d : Nat} (hy : 1 ≤ y) :
    combRule c (y + 400) m d ↔ combRule c y m d := by
  unfold combRule
  rw [weekday_add_400 y m d hy]

/-- Matching days repeat with period 400 years. -/
theorem matchesDay_add_400 {c : Crontab} {y m d : Nat} (hy : 1 ≤ y) :
    matchesDay c (y + 400) m d ↔ matchesDay c y m d := by
  unfold matchesDay
  rw [monthLen_add_400, combRule_add_400 hy]

/-- A year with a matching day contributes at least one date to its
pass. -/
theorem yearDates_length_pos {c : Crontab} {Y m d : Nat} (hm1 : 1 ≤ m)
    (h : matchesDay c Y m d) : 0 < (yearDates c ⟨Y, 1, 1⟩).length := by
  rcases h with ⟨hm, hd1, hd2, hcomb⟩
  have hmem : (⟨Y, m, d⟩ : Date) ∈ yearDates c ⟨Y, 1, 1⟩ :=
    mem_yearDates.2 ⟨rfl, hm, hm1, hd1, hd2, fun _ => hd1, hcomb⟩
  exact List.length_pos.2 (List.ne_nil_of_mem hmem)

/-- Peeling one year pass off the date sequence. -/
theorem datesUpTo_succ (c : Crontab) (a : Date) (k : Nat) :
    datesUpTo c a (k + 1) = datesUpTo c a k ++ yearDates c (anchorFor a k) := by
  unfold datesUpTo
  rw [List.range_succ, List.flatMap_append]
  simp

/-- The date sequence grows with the number of year passes. -/
theorem datesUpTo_length_mono (c : Crontab) (a : Date) :
    ∀ {k k' : Nat}, k ≤ k' →
      (datesUpTo c a k).length ≤ (datesUpTo c a k').length := by
  intro k k' h
  induction k' with
  | zero =>
    have : k = 0 := by omega
    subst this
    exact Nat.le_refl _
  | succ j ih =>
    by_cases hk : k ≤ j
    · calc (datesUpTo c a k).length ≤ (datesUpTo c a j).length := ih hk
        _ ≤ (datesUpTo c a (j + 1)).length := by
          rw [datesUpTo_succ, List.length_append]
          omega
    · have : k = j + 1 := by omega
      subst this
      exact Nat.le_refl _

/-- Claim C4 as amended: for a parsed schedule, if some day of some
year strictly after the start year matches the schedule, then `dates`
is an infinite sequence (its year passes eventually exceed any length),
because matching days recur every 400 years.  Without such a day the
generator loops forever yielding nothing, as the counterexample
`0 0 30 2 *` shows, so the original unconditional claim fails. -/
theorem C4_dates_infinite (s : String) (c : Crontab) (hc : parse s = .ok c)
    (anchor : Date) (y0 m d : Nat) (hy0 : anchor.year < y0)
    (hmatch : matchesDay c y0 m d) :
    ∀ n : Nat, ∃ k, n ≤ (datesUpTo c anchor k).length := by
  have hm1 : 1 ≤ m := ((parse_ok_inv hc).2.2.2.1.1 m hmatch.1).1
  have hmatchj : ∀ j : Nat, matchesDay c (y0 + 400 * j) m d := by
    intro j
    induction j with
    | zero => simpa using hmatch
    | succ i ih =>
      have hyi : 1 ≤ y0 + 400 * i := by omega
      have := (matchesDay_add_400 (c := c) (m := m) (d := d) hyi).2 ih
      have harith : y0 + 400 * i + 400 = y0 + 400 * (i + 1) := by ring
      rwa [harith] at this
  have key : ∀ j : Nat,
      j + 1 ≤ (datesUpTo c anchor ((y0 + 400 * j) - anchor.year + 1)).length := by
    intro j
    induction j with
    | zero =>
      rw [datesUpTo_succ, List.length_append]
      have hi0 : y0 - anchor.year ≠ 0 := by omega
      have hanch : anchorFor anchor (y0 - anchor.year) = ⟨y0, 1, 1⟩ := by
        unfold anchorFor
        rw [if_neg hi0]
        have : anchor.year + (y0 - anchor.year) = y0 := by omega
        rw [this]
      simp only [Nat.mul_zero, Nat.add_zero]
      rw [hanch]
      have := yearDates_length_pos hm1 (hmatchj 0)
      simp only [Nat.mul_zero, Nat.add_zero] at this
      omega
    | succ i ih =>
      have hij : (y0 + 400 * i) - anchor.year + 1 ≤ (y0 + 400 * (i + 1)) - anchor.year := by
        omega
      have hmono := datesUpTo_length_mono c anchor hij
      rw [datesUpTo_succ, List.length_append]
      have hi0 : (y0 + 400 * (i + 1)) - anchor.year ≠ 0 := by omega
      have hanch : anchorFor anchor ((y0 + 400 * (i + 1)) - anchor.year) =
          ⟨y0 + 400 * (i + 1), 1, 1⟩ := by
        unfold anchorFor
        rw [if_neg hi0]
        have : anchor.year + ((y0 + 400 * (i + 1)) - anchor.year) = y0 + 400 * (i + 1) := by
          omega
        rw [this]
      rw [hanch]
      have hpos := yearDates_length_pos hm1 (hmatchj (i + 1))
      omega
  intro n
  rcases n with _ | j
  · exact ⟨0, Nat.zero_le _⟩
  · exact ⟨(y0 + 400 * j) - anchor.year + 1, key j⟩

/-- Concrete instantiation of `C4_dates_infinite`: the everyday
schedule from 2022-01-01 eventually yields at least three dates. -/
theorem C4_dates_infinite_witness :
    ∃ k, 3 ≤ (datesUpTo
      ⟨[0], [0],
        [1, 2, 3, 4, 5, 6, 7, 8, 9, 10, 11, 12, 13, 14, 15, 16, 17, 18, 19, 20, 21,
          22, 23, 24, 25, 26, 27, 28, 29, 30, 31],
        [1, 2, 3, 4, 5, 6, 7, 8, 9, 10, 11, 12],
        [0, 1, 2, 3, 4, 5, 6], true, true⟩ ⟨2022, 1, 1⟩ k).length :=
  C4_dates_infinite "0 0 * * *"
    ⟨[0], [0],
      [1, 2, 3, 4, 5, 6, 7, 8, 9, 10, 11, 12, 13, 14, 15, 16, 17, 18, 19, 20, 21,
        22, 23, 24, 25, 26, 27, 28, 29, 30, 31],
      [1, 2, 3, 4, 5, 6, 7, 8, 9, 10, 11, 12],
      [0, 1, 2, 3, 4, 5, 6], true, true⟩ (by decide)
    ⟨2022, 1, 1⟩ 2023 1 1 (by decide) (by decide) 3

/-- One year pass of the schedule `0 0 30 2 *` emits nothing: February
never has a thirtieth day. -/
theorem feb30_yearDates (a : Date) :
    yearDates ⟨[0], [0], [30], [2], [0, 1, 2, 3, 4, 5, 6], false, true⟩ a = [] := by
  unfold yearDates
  simp only [List.flatMap_cons, List.flatMap_nil, List.append_nil]
  by_cases h2 : 2 < a.month
  · rw [if_pos h2]
  · rw [if_neg h2]
    rw [List.filterMap_eq_nil_iff]
    intro p hp
    rcases mem_itermonthdays2 hp with h0 | ⟨h1, hlen2, _⟩
    · simp [dayEmit, h0]
    · have hlen : monthLen a.year 2 ≤ 29 := by
        unfold monthLen
        rw [if_pos rfl]
        split <;> omega
      have hne : (p.1 == 30) = false := by
        rw [beq_eq_false_iff_ne]
        omega
      simp only [dayEmit]
      by_cases h0 : p.1 = 0
      · rw [if_pos h0]
      · rw [if_neg h0]
        by_cases hfl : 2 = a.month ∧ p.1 < a.day
        · rw [if_pos hfl]
        · rw [if_neg hfl]
          simp [List.contains_cons, hne]
          omega

/-- Claim C4, counterexample: the schedule `0 0 30 2 *` parses (its
day-of-month value 30 is within [1,31]) but `dates` never yields a
single date from any start, for any number of year passes: day 30 never
exists in February, so the claimed infinite sequence is in fact empty. -/
theorem C4_counterexample :
    parse "0 0 30 2 *" =
      Except.ok ⟨[0], [0], [30], [2], [0, 1, 2, 3, 4, 5, 6], false, true⟩ ∧
    ∀ k, datesUpTo ⟨[0], [0], [30], [2], [0, 1, 2, 3, 4, 5, 6], false, true⟩
      ⟨2022, 1, 1⟩ k = [] := by
  refine ⟨by decide, ?_⟩
  intro k
  unfold datesUpTo
  rw [List.flatMap_eq_nil_iff]
  intro i _
  exact feb30_yearDates _

/-- Claim C8, counterexample: replacing the single abbreviation `SAT`
in the day-of-week field `SATUE` by its numeric equivalent changes the
result of `parse`: the original field has `TUE` substituted first
(`SATUE` becomes `SA2`), while the pre-replaced field `6UE` keeps `UE`,
so the two InvalidExpression results carry different texts. -/
theorem C8_counterexample :
    parse "0 0 * * SATUE" ≠ parse "0 0 * * 6UE" ∧
    parse "0 0 * * SATUE" =
      Except.error (PyErr.invalidExpression "Invalid expression: SA2") ∧
    parse "0 0 * * 6UE" =
      Except.error (PyErr.invalidExpression "Invalid expression: 6UE") := by
  refine ⟨?_, by decide, by decide⟩
  decide

/-- A three-character pattern occurs in a nonempty list exactly when it occurs
at the head or somewhere in the tail. -/
theorem occ3_cons {p1 p2 p3 c : Char} {t : List Char} :
    Occ3 p1 p2 p3 (c :: t) ↔
      (c = p1 ∧ ∃ w, t = p2 :: p3 :: w) ∨ Occ3 p1 p2 p3 t := by
  constructor
  · rintro ⟨u, v, huv⟩
    rcases u with _ | ⟨x, u2⟩
    · simp only [List.nil_append, List.cons_append] at huv
      injection huv with h1 h2
      exact Or.inl ⟨h1, v, h2⟩
    · simp only [List.cons_append] at huv
      injection huv with _ h2
      exact Or.inr ⟨u2, v, h2⟩
  · rintro (⟨hc, w, hw⟩ | ⟨u, v, huv⟩)
    · exact ⟨[], w, by simp [hc, hw]⟩
    · exact ⟨c :: u, v, by simp [huv]⟩

/-- A list containing a three-character pattern has length at least three. -/
theorem occ3_length {p1 p2 p3 : Char} {s : List Char} (h : Occ3 p1 p2 p3 s) :
    3 ≤ s.length := by
  rcases h with ⟨u, v, rfl⟩
  simp only [List.length_append, List.length_cons, List.length_nil]
  omega

/-- The head of a `replace3` output is the replacement character or the head
of the input. -/
theorem replace3_head {p1 p2 p3 rep x : Char} {l w : List Char}
    (h : replace3 p1 p2 p3 rep l = x :: w) :
    x = rep ∨ ∃ w2, l = x :: w2 := by
  rcases l with _ | ⟨c, _ | ⟨d, _ | ⟨e, t⟩⟩⟩
  · simp [replace3] at h
  · simp only [replace3] at h
    injection h with h1 _
    exact Or.inr ⟨[], by rw [h1]⟩
  · simp only [replace3] at h
    injection h with h1 _
    exact Or.inr ⟨[d], by rw [h1]⟩
  · by_cases hm : c = p1 ∧ d = p2 ∧ e = p3
    · simp only [replace3, if_pos hm] at h
      injection h with h1 _
      exact Or.inl h1.symm
    · simp only [replace3, if_neg hm] at h
      injection h with h1 _
      exact Or.inr ⟨d :: e :: t, by rw [h1]⟩

/-- If a `replace3` output starts with two characters both distinct from the
replacement character, the input starts with those same two characters. -/
theorem replace3_starts2 {p1 p2 p3 rep a b : Char} {l w : List Char}
    (ha : a ≠ rep) (hb : b ≠ rep)
    (h : replace3 p1 p2 p3 rep l = a :: b :: w) :
    ∃ w2, l = a :: b :: w2 := by
  rcases l with _ | ⟨c, _ | ⟨d, _ | ⟨e, t⟩⟩⟩
  · simp [replace3] at h
  · simp only [replace3] at h
    injection h with _ h2
    cases h2
  · simp only [replace3] at h
    injection h with h1 h2
    injection h2 with h2 _
    exact ⟨[], by rw [h1, h2]⟩
  · by_cases hm : c = p1 ∧ d = p2 ∧ e = p3
    · simp only [replace3, if_pos hm] at h
      injection h with h1 _
      exact absurd h1.symm ha
    · simp only [replace3, if_neg hm] at h
      injection h with h1 h2
      rcases replace3_head h2 with hb2 | ⟨w2, hw2⟩
      · exact absurd hb2 hb
      · injection hw2 with hd _
        exact ⟨e :: t, by rw [h1, hd]⟩

/-- After replacing every occurrence of a pattern whose characters all differ
from the replacement character, the pattern no longer occurs. -/
theorem replace3_no_occ {p1 p2 p3 rep : Char}
    (h1 : rep ≠ p1) (h2 : rep ≠ p2) (h3 : rep ≠ p3) :
    ∀ l : List Char, ¬ Occ3 p1 p2 p3 (replace3 p1 p2 p3 rep l) := by
  suffices H : ∀ n, ∀ l : List Char, l.length ≤ n →
      ¬ Occ3 p1 p2 p3 (replace3 p1 p2 p3 rep l) by
    intro l
    exact H l.length l (Nat.le_refl _)
  intro n
  induction n with
  | zero =>
    intro l hl hocc
    rcases l with _ | ⟨c, t⟩
    · have h4 := occ3_length hocc
      simp only [replace3, List.length_nil] at h4
      omega
    · simp only [List.length_cons] at hl
      omega
  | succ n ih =>
    intro l hl hocc
    rcases l with _ | ⟨c, _ | ⟨d, _ | ⟨e, t⟩⟩⟩
    · have h4 := occ3_length hocc
      simp only [replace3, List.length_nil] at h4
      omega
    · have h4 := occ3_length hocc
      simp only [replace3, List.length_cons, List.length_nil] at h4
      omega
    · have h4 := occ3_length hocc
      simp only [replace3, List.length_cons, List.length_nil] at h4
      omega
    · by_cases hm : c = p1 ∧ d = p2 ∧ e = p3
      · rw [show replace3 p1 p2 p3 rep (c :: d :: e :: t) =
            rep :: replace3 p1 p2 p3 rep t from by
          simp only [replace3, if_pos hm]] at hocc
        rcases occ3_cons.1 hocc with ⟨hc, _, _⟩ | hocc2
        · exact h1 hc
        · exact ih t (by simp only [List.length_cons] at hl ⊢; omega) hocc2
      · rw [show replace3 p1 p2 p3 rep (c :: d :: e :: t) =
            c :: replace3 p1 p2 p3 rep (d :: e :: t) from by
          simp only [replace3, if_neg hm]] at hocc
        rcases occ3_cons.1 hocc with ⟨hc, w, hw⟩ | hocc2
        · rcases replace3_starts2 (Ne.symm h2) (Ne.symm h3) hw with ⟨w2, hw2⟩
          injection hw2 with hd hw3
          injection hw3 with he _
          exact hm ⟨hc, hd, he⟩
        · exact ih (d :: e :: t)
            (by simp only [List.length_cons] at hl ⊢; omega) hocc2

/-- Replacing a pattern by a character that differs from every character of
another, absent, pattern keeps that pattern absent. -/
theorem replace3_pres_no_occ {a b c0 p1 p2 p3 rep : Char}
    (ha : rep ≠ a) (hb : rep ≠ b) (hc : rep ≠ c0) :
    ∀ l : List Char, ¬ Occ3 a b c0 l →
      ¬ Occ3 a b c0 (replace3 p1 p2 p3 rep l) := by
  suffices H : ∀ n, ∀ l : List Char, l.length ≤ n → ¬ Occ3 a b c0 l →
      ¬ Occ3 a b c0 (replace3 p1 p2 p3 rep l) by
    intro l
    exact H l.length l (Nat.le_refl _)
  intro n
  induction n with
  | zero =>
    intro l hl hno hocc
    rcases l with _ | ⟨c, t⟩
    · simp only [replace3] at hocc
      exact hno hocc
    · simp only [List.length_cons] at hl
      omega
  | succ n ih =>
    intro l hl hno hocc
    rcases l with _ | ⟨c, _ | ⟨d, _ | ⟨e, t⟩⟩⟩
    · simp only [replace3] at hocc
      exact hno hocc
    · simp only [replace3] at hocc
      exact hno hocc
    · simp only [replace3] at hocc
      exact hno hocc
    · by_cases hm : c = p1 ∧ d = p2 ∧ e = p3
      · rw [show replace3 p1 p2 p3 rep (c :: d :: e :: t) =
            rep :: replace3 p1 p2 p3 rep t from by
          simp only [replace3, if_pos hm]] at hocc
        rcases occ3_cons.1 hocc with ⟨hca, _, _⟩ | hocc2
        · exact ha hca
        · have hno2 : ¬ Occ3 a b c0 t := fun h4 =>
            hno (occ3_cons.2 (Or.inr (occ3_cons.2 (Or.inr
              (occ3_cons.2 (Or.inr h4))))))
          exact ih t (by simp only [List.length_cons] at hl ⊢; omega) hno2 hocc2
      · rw [show replace3 p1 p2 p3 rep (c :: d :: e :: t) =
            c :: replace3 p1 p2 p3 rep (d :: e :: t) from by
          simp only [replace3, if_neg hm]] at hocc
        rcases occ3_cons.1 hocc with ⟨hca, w, hw⟩ | hocc2
        · rcases replace3_starts2 (Ne.symm hb) (Ne.symm hc) hw with ⟨w2, hw2⟩
          exact hno (occ3_cons.2 (Or.inl ⟨hca, w2, hw2⟩))
        · have hno2 : ¬ Occ3 a b c0 (d :: e :: t) := fun h4 =>
            hno (occ3_cons.2 (Or.inr h4))
          exact ih (d :: e :: t)
            (by simp only [List.length_cons] at hl ⊢; omega) hno2 hocc2

/-- Replacing a pattern that does not occur leaves the list unchanged. -/
theorem replace3_id_of_no_occ {p1 p2 p3 rep : Char} :
    ∀ l : List Char, ¬ Occ3 p1 p2 p3 l → replace3 p1 p2 p3 rep l = l := by
  suffices H : ∀ n, ∀ l : List Char, l.length ≤ n → ¬ Occ3 p1 p2 p3 l →
      replace3 p1 p2 p3 rep l = l by
    intro l
    exact H l.length l (Nat.le_refl _)
  intro n
  induction n with
  | zero =>
    intro l hl _
    rcases l with _ | ⟨c, t⟩
    · simp [replace3]
    · simp only [List.length_cons] at hl
      omega
  | succ n ih =>
    intro l hl hno
    rcases l with _ | ⟨c, _ | ⟨d, _ | ⟨e, t⟩⟩⟩
    · simp [replace3]
    · simp [replace3]
    · simp [replace3]
    · by_cases hm : c = p1 ∧ d = p2 ∧ e = p3
      · exact absurd
          (occ3_cons.2 (Or.inl ⟨hm.1, t, by rw [hm.2.1, hm.2.2]⟩)) hno
      · simp only [replace3, if_neg hm]
        have hno2 : ¬ Occ3 p1 p2 p3 (d :: e :: t) := fun h4 =>
          hno (occ3_cons.2 (Or.inr h4))
        rw [ih (d :: e :: t)
          (by simp only [List.length_cons] at hl ⊢; omega) hno2]

/-- `_handle_text_day_week` is idempotent: after the seven substitutions no
weekday abbreviation remains (the digit replacements cannot rebuild one), so
a second pass changes nothing. -/
theorem handle_idem (e : List Char) :
    handle_text_day_week (handle_text_day_week e) = handle_text_day_week e := by
  have hSUN : ¬ Occ3 'S' 'U' 'N' (handle_text_day_week e) := by
    unfold handle_text_day_week
    exact replace3_pres_no_occ (by decide) (by decide) (by decide) _
      (replace3_pres_no_occ (by decide) (by decide) (by decide) _
        (replace3_pres_no_occ (by decide) (by decide) (by decide) _
          (replace3_pres_no_occ (by decide) (by decide) (by decide) _
            (replace3_pres_no_occ (by decide) (by decide) (by decide) _
              (replace3_pres_no_occ (by decide) (by decide) (by decide) _
                (replace3_no_occ (by decide) (by decide) (by decide) _))))))
  have hMON : ¬ Occ3 'M' 'O' 'N' (handle_text_day_week e) := by
    unfold handle_text_day_week
    exact replace3_pres_no_occ (by decide) (by decide) (by decide) _
      (replace3_pres_no_occ (by decide) (by decide) (by decide) _
        (replace3_pres_no_occ (by decide) (by decide) (by decide) _
          (replace3_pres_no_occ (by decide) (by decide) (by decide) _
            (replace3_pres_no_occ (by decide) (by decide) (by decide) _
              (replace3_no_occ (by decide) (by decide) (by decide) _)))))
  have hTUE : ¬ Occ3 'T' 'U' 'E' (handle_text_day_week e) := by
    unfold handle_text_day_week
    exact replace3_pres_no_occ (by decide) (by decide) (by decide) _
      (replace3_pres_no_occ (by decide) (by decide) (by decide) _
        (replace3_pres_no_occ (by decide) (by decide) (by decide) _
          (replace3_pres_no_occ (by decide) (by decide) (by decide) _
            (replace3_no_occ (by decide) (by decide) (by decide) _))))
  have hWED : ¬ Occ3 'W' 'E' 'D' (handle_text_day_week e) := by
    unfold handle_text_day_week
    exact replace3_pres_no_occ (by decide) (by decide) (by decide) _
      (replace3_pres_no_occ (by decide) (by decide) (by decide) _
        (replace3_pres_no_occ (by decide) (by decide) (by decide) _
          (replace3_no_occ (by decide) (by decide) (by decide) _)))
  have hTHU : ¬ Occ3 'T' 'H' 'U' (handle_text_day_week e) := by
    unfold handle_text_day_week
    exact replace3_pres_no_occ (by decide) (by decide) (by decide) _
      (replace3_pres_no_occ (by decide) (by decide) (by decide) _
        (replace3_no_occ (by decide) (by decide) (by decide) _))
  have hFRI : ¬ Occ3 'F' 'R' 'I' (handle_text_day_week e) := by
    unfold handle_text_day_week
    exact replace3_pres_no_occ (by decide) (by decide) (by decide) _
      (replace3_no_occ (by decide) (by decide) (by decide) _)
  have hSAT : ¬ Occ3 'S' 'A' 'T' (handle_text_day_week e) := by
    unfold handle_text_day_week
    exact replace3_no_occ (by decide) (by decide) (by decide) _
  show replace3 'S' 'A' 'T' '6'
      (replace3 'F' 'R' 'I' '5'
        (replace3 'T' 'H' 'U' '4'
          (replace3 'W' 'E' 'D' '3'
            (replace3 'T' 'U' 'E' '2'
              (replace3 'M' 'O' 'N' '1'
                (replace3 'S' 'U' 'N' '0' (handle_text_day_week e))))))) =
      handle_text_day_week e
  rw [replace3_id_of_no_occ _ hSUN, replace3_id_of_no_occ _ hMON,
    replace3_id_of_no_occ _ hTUE, replace3_id_of_no_occ _ hWED,
    replace3_id_of_no_occ _ hTHU, replace3_id_of_no_occ _ hFRI,
    replace3_id_of_no_occ _ hSAT]

theorem parseFields_handle (me he dme moe w : List Char) :
    parseFields me he dme moe (handle_text_day_week w) =
      parseFields me he dme moe w := by
  simp only [parseFields, handle_idem]

set_option maxHeartbeats 1000000 in
/-- Claim C8, amended: substituting ALL weekday abbreviations in the
day-of-week field at once — replacing the field text by its fully
substituted form — never changes the result of `parse` (the parser applies
`_handle_text_day_week`, which is idempotent): whenever two non-macro
expressions split into five fields differing only in that the day-of-week
field of one is the fully substituted form of the other's, `parse` agrees
on them. In particular the claim's examples hold: parse of "0 0 * 2 FRI"
equals parse of "0 0 * 2 5", and "MON-FRI" parses identically to "1-5".
Replacing a SINGLE abbreviation occurrence can change the outcome when
abbreviations overlap textually (see the counterexample), but only between
two failures. -/
theorem C8_substitution_invariance :
    (∀ me he dme moe w : List Char,
      parseFields me he dme moe (handle_text_day_week w) =
        parseFields me he dme moe w) ∧
    (∀ (s t : String) (me he dme moe w : List Char),
      MACROS.lookup s = none → MACROS.lookup t = none →
      splitOnChar ' ' s.toList = [me, he, dme, moe, w] →
      splitOnChar ' ' t.toList = [me, he, dme, moe, handle_text_day_week w] →
      parse t = parse s) ∧
    parse "0 0 * 2 FRI" = parse "0 0 * 2 5" ∧
    parse "0 22 * * MON-FRI" = parse "0 22 * * 1-5" := by
  refine ⟨parseFields_handle, ?_, by decide, by decide⟩
  intro s t me he dme moe w hs ht h1 h2
  simp only [parse, hs, ht, Option.getD_none, h1, h2]
  exact parseFields_handle me he dme moe w

set_option maxHeartbeats 1000000 in
/-- Concrete instantiation of `C8_substitution_invariance`: replacing the
day-of-week field "MON" by its fully substituted form "1" leaves the
result of `parse` unchanged. -/
theorem C8_substitution_invariance_witness :
    parse "0 0 * * 1" = parse "0 0 * * MON" :=
  C8_substitution_invariance.2.1 "0 0 * * MON" "0 0 * * 1"
    (List.cons '0' List.nil) (List.cons '0' List.nil)
    (List.cons '*' List.nil) (List.cons '*' List.nil)
    (List.cons 'M' (List.cons 'O' (List.cons 'N' List.nil)))
    (by decide) (by decide) (by decide) (by decide)


end Crontabula
